import Mathlib

/-!
Verification of the rule-based English tokenizer of `elit/component/tokenize.py`
(classes `Tokenizer`, `SpaceTokenizer`, `EnglishTokenizer`).

Texts are embedded as `List Char` indexed by character position, mirroring
Python string indexing.  Python's Unicode character classes (`isdigit`,
`isalnum`, `isspace`, `lower`, ...) are modelled by their ASCII behaviour via
Lean's `Char` primitives; this is uniform across the whole development.
Python's mutable `tokens` / `offsets` lists are modelled by explicit state
passing; the lists are kept newest-first (a Python `append` is a cons), and the
top-level `tokenize` reverses them at the end.
-/

/-- `text[b:e]` for a character list: Python slice semantics (clamping). -/
def pySlice (l : List Char) (b e : Nat) : List Char :=
  (l.drop b).take (e - b)

/-- Model of Python `str.isspace` on a single character (ASCII whitespace). -/
def pyIsSpace (c : Char) : Bool :=
  c = ' ' || c = '\t' || c = '\n' || c = '\x0b' || c = '\x0c' || c = '\r'

/-- Model of Python `str.isalnum` on a whole string: nonempty and all alphanumeric. -/
def pyIsAlnumStr (s : List Char) : Bool :=
  !s.isEmpty && s.all Char.isAlphanum

/-- Model of Python `str.isdigit` on a whole string: nonempty and all digits. -/
def pyIsDigitStr (s : List Char) : Bool :=
  !s.isEmpty && s.all Char.isDigit

/-- Model of Python `str.isupper`: has a cased character and no lowercase one (ASCII). -/
def pyIsUpperStr (s : List Char) : Bool :=
  s.any Char.isAlpha && s.all (fun c => !c.isLower)

/-- Model of Python `str.lower` (ASCII). -/
def lowerStr (s : List Char) : List Char :=
  s.map Char.toLower

/-- Modelled from the spec: `is_single_quote` of the missing `elit/string_util`
module ("a quote character", "single quote"): straight or curly single quote. -/
def is_single_quote (c : Char) : Bool :=
  c = '\'' || c = '‘' || c = '’'

/-- Modelled from the spec: `is_final_mark` of the missing `elit/string_util`
module; the spec fixes the class to the sentence-final punctuation `.?!`. -/
def is_final_mark (c : Char) : Bool :=
  c = '.' || c = '?' || c = '!'

/-- Modelled from the spec: `is_bracket` of the missing `elit/string_util`
module ("any bracket"). -/
def is_bracket (c : Char) : Bool :=
  c = '(' || c = ')' || c = '[' || c = ']' || c = '{' || c = '}' || c = '<' || c = '>'

/-- Modelled from the spec: `is_arrow` of the missing `elit/string_util`
module ("any arrow"). -/
def is_arrow (c : Char) : Bool :=
  c = '←' || c = '↑' || c = '→' || c = '↓' || c = '↔'

/-- Modelled from the spec: `is_double_quote` of the missing `elit/string_util`
module ("any double quote"). -/
def is_double_quote (c : Char) : Bool :=
  c = '"' || c = '“' || c = '”'

/-- Modelled from the spec: `is_hyphen` of the missing `elit/string_util`
module ("any hyphen"). -/
def is_hyphen (c : Char) : Bool :=
  c = '-' || c = '–' || c = '—'

/-- Modelled from the spec: `is_currency` of the missing `elit/string_util`
module ("a currency symbol"). -/
def is_currency (c : Char) : Bool :=
  c = '$' || c = '£' || c = '¥' || c = '€' || c = '¢'

/-- Modelled from the spec: `is_punct` of the missing `elit/string_util`
module ("another punctuation character"): non-alphanumeric, non-space. -/
def is_punct (c : Char) : Bool :=
  !c.isAlphanum && !pyIsSpace c

/-- `is_digit(token, i)` of `tokenize.py` (single-index form), with a Python
`int` index: out-of-range (including negative) yields `False`. -/
def is_digit1 (tok : List Char) (i : Int) : Bool :=
  if 0 ≤ i ∧ i < tok.length then (tok.getD i.toNat ' ').isDigit else false

/-- `is_digit(token, i, j)` of `tokenize.py` (range form): requires
`0 <= i < len` and `i < j <= len`, then tests `token[i:j].isdigit()`. -/
def is_digit2 (tok : List Char) (i j : Int) : Bool :=
  if 0 ≤ i ∧ i < tok.length then
    if i < j ∧ j ≤ tok.length then (pySlice tok i.toNat j.toNat).all Char.isDigit
    else false
  else false

/-! ## A small backtracking regular-expression engine

Python `re` search is modelled by a backtracking matcher over a regex AST.
Results are produced in Python's backtracking preference order (alternation
prefers the left branch, repetition is greedy), so the head of the result list
is the match Python would return.  Each starred sub-pattern of the regexes in
`tokenize.py` consumes at least one character, so the engine requires star
iterations to consume (this also makes the matcher terminate). -/

/-- Regex AST: character predicate, concatenation, alternation, greedy star,
numbered capture group, and the `$` end-anchor. -/
inductive Rx : Type where
  | eps : Rx
  | pred : (Char → Bool) → Rx
  | eos : Rx
  | cat : Rx → Rx → Rx
  | alt : Rx → Rx → Rx
  | star : Rx → Rx
  | grp : Nat → Rx → Rx

/-- Capture record: (group id, begin, end). The most recent capture comes first. -/
abbrev Caps := List (Nat × Nat × Nat)

/-- The iteration of a greedy star: try one consuming iteration of the body and
continue, preferring more iterations; then the empty match.  The fuel is
initialized to `s.length - i`, which bounds the number of consuming
iterations, so the base case coincides with the no-further-iteration case. -/
def starIter (body : Nat → List (Nat × Caps)) (slen : Nat) : Nat → Nat → List (Nat × Caps)
  | 0, i => [(i, [])]
  | fuel + 1, i =>
      (((body i).filter (fun jc => i < jc.1 && jc.1 ≤ slen)).flatMap
        (fun x => (starIter body slen fuel x.1).map (fun y => (y.1, y.2 ++ x.2))))
      ++ [(i, [])]

/-- All ways `re` can match `s` starting at position `i`, as (end position,
captures), in backtracking preference order (leftmost-greedy first). -/
def mRx : Rx → List Char → Nat → List (Nat × Caps)
  | .eps, _, i => [(i, [])]
  | .pred p, s, i =>
      if h : i < s.length then (if p (s.get ⟨i, h⟩) then [(i + 1, [])] else []) else []
  | .eos, s, i => if i = s.length then [(i, [])] else []
  | .cat a b, s, i =>
      (mRx a s i).flatMap
        (fun x =>
          (mRx b s x.1).map (fun y => (y.1, y.2 ++ x.2)))
  | .alt a b, s, i => mRx a s i ++ mRx b s i
  | .star a, s, i => starIter (fun j => mRx a s j) s.length (s.length - i) i
  | .grp n a, s, i => (mRx a s i).map (fun jc => (jc.1, (n, i, jc.1) :: jc.2))

/-- Leftmost search: try match start positions `i, i+1, ...` (up to and
including the end of the string), taking the first backtracking success.
The fuel is initialized to `s.length + 1`, enough for all start positions. -/
def rxSearchFrom (re : Rx) (s : List Char) : Nat → Nat → Option (Nat × Nat × Caps)
  | 0, _ => none
  | fuel + 1, i =>
    match (mRx re s i).head? with
    | some (j, c) => some (i, j, c)
    | none => if i < s.length then rxSearchFrom re s fuel (i + 1) else none

/-- Python `re.search`: leftmost match as (start, end, captures). -/
def rxSearch (re : Rx) (s : List Char) : Option (Nat × Nat × Caps) :=
  rxSearchFrom re s (s.length + 1) 0

/-- The [start, end) of the whole leftmost match (`m.start(0)`, `m.end(0)`). -/
def rxSearchSpan (re : Rx) (s : List Char) : Option (Nat × Nat) :=
  (rxSearch re s).map (fun r => (r.1, r.2.1))

/-- The [start, end) of capture group `g` of the leftmost match
(`m.start(g)`, `m.end(g)`). -/
def rxSearchGroup (re : Rx) (g : Nat) (s : List Char) : Option (Nat × Nat) :=
  (rxSearch re s).bind (fun r => (r.2.2.find? (fun t => t.1 = g)).map (fun t => (t.2.1, t.2.2)))

/-- Derived: `a?` (greedy option). -/
def Rx.opt (a : Rx) : Rx := .alt a .eps

/-- Derived: `a+` (greedy plus). -/
def Rx.pls (a : Rx) : Rx := .cat a (.star a)

/-- Derived: a literal character. -/
def Rx.ch (c : Char) : Rx := .pred (fun d => d = c)

/-- Derived: a case-insensitive literal character (for `(?i)` patterns). -/
def Rx.chI (c : Char) : Rx := .pred (fun d => d.toLower = c)

/-- Derived: a literal string. -/
def Rx.str (cs : List Char) : Rx := cs.foldr (fun c r => .cat (.ch c) r) .eps

/-- Derived: a case-insensitive literal string. -/
def Rx.strI (cs : List Char) : Rx := cs.foldr (fun c r => .cat (.chI c) r) .eps

/-- Derived: `a{0,n}` (greedy, at most `n` repetitions). -/
def Rx.upTo : Nat → Rx → Rx
  | 0, _ => .eps
  | n + 1, a => .opt (.cat a (Rx.upTo n a))

/-- Derived: `a{m,n}` (greedy bounded repetition, `m ≤ n`). -/
def Rx.rep (m n : Nat) (a : Rx) : Rx :=
  (List.replicate m a).foldr .cat (Rx.upTo (n - m) a)

/-- Derived: an n-ary alternation (left preference, like Python `x|y|z`). -/
def Rx.altN : List Rx → Rx
  | [] => .eps
  | [a] => a
  | a :: rest => .alt a (Rx.altN rest)

/-- Syntactic check: every match of the regex consumes at least one character. -/
def Rx.consumes : Rx → Bool
  | .eps => false
  | .pred _ => true
  | .eos => false
  | .cat a b => a.consumes || b.consumes
  | .alt a b => a.consumes && b.consumes
  | .star _ => false
  | .grp _ a => a.consumes

/-- Syntactic check: every `grp g` node in the regex has a consuming body, so
every recorded capture for `g` is nonempty. -/
def Rx.grpConsumes : Rx → Nat → Bool
  | .eps, _ => true
  | .pred _, _ => true
  | .eos, _ => true
  | .cat a b, g => a.grpConsumes g && b.grpConsumes g
  | .alt a b, g => a.grpConsumes g && b.grpConsumes g
  | .star a, g => a.grpConsumes g
  | .grp n a, g => (if n = g then a.consumes else true) && a.grpConsumes g

/-! ## The regex patterns of `EnglishTokenizer.__init__`, as ASTs -/

/-- `\w` (ASCII): word character. -/
def rxW : Rx := .pred (fun c => c.isAlphanum || c = '_')

/-- `\W` (ASCII): non-word character. -/
def rxNW : Rx := .pred (fun c => !(c.isAlphanum || c = '_'))

/-- `\d`. -/
def rxD : Rx := .pred Char.isDigit

/-- `[A-Za-z]`. -/
def rxAlpha : Rx := .pred Char.isAlpha

/-- A character class given by an explicit list. -/
def rxCls (cs : List Char) : Rx := .pred (fun c => cs.contains c)

/-- `((http|https|ftp|sftp|ssh|ssl|telnet|smtp|pop3|imap|imap4|sip)(://))`. -/
def RE_NETWORK_PROTOCOL : Rx :=
  .grp 1 (.cat
    (.grp 2 (Rx.altN
      [Rx.str "http".toList, Rx.str "https".toList, Rx.str "ftp".toList,
       Rx.str "sftp".toList, Rx.str "ssh".toList, Rx.str "ssl".toList,
       Rx.str "telnet".toList, Rx.str "smtp".toList, Rx.str "pop3".toList,
       Rx.str "imap".toList, Rx.str "imap4".toList, Rx.str "sip".toList]))
    (.grp 3 (Rx.str "://".toList)))

/-- `(:\w+:|<[\\/]?3|[\(\)\\\|\*\$][-\^]?[:\=\;]|[:\=\;B8]([-\^]+)?[3DOPp\@\$\*\(\)\\/\|]+)(\W|$)`. -/
def RE_EMOTICON : Rx :=
  .cat
    (.grp 1 (Rx.altN
      [ .cat (Rx.ch ':') (.cat (Rx.pls rxW) (Rx.ch ':')),
        .cat (Rx.ch '<') (.cat (Rx.opt (rxCls "\\/".toList)) (Rx.ch '3')),
        .cat (rxCls "()\\|*$".toList) (.cat (Rx.opt (rxCls "-^".toList)) (rxCls ":=;".toList)),
        .cat (rxCls ":=;B8".toList)
          (.cat (Rx.opt (.grp 2 (Rx.pls (rxCls "-^".toList))))
            (Rx.pls (rxCls "3DOPp@$*()\\/|".toList))) ]))
    (.grp 3 (.alt rxNW .eos))

/-- `\d{1,3}` (used inside `RE_EMAIL`). -/
def rxD13 : Rx := Rx.rep 1 3 rxD

/-- `[\w\-\.]+(:\S+)?@(([A-Za-z0-9\-]+\.)+[A-Za-z]{2,12}|\d{1,3}(\.\d{1,3}){3})`. -/
def RE_EMAIL : Rx :=
  .cat (Rx.pls (.pred (fun c => c.isAlphanum || c = '_' || c = '-' || c = '.')))
    (.cat (Rx.opt (.grp 1 (.cat (Rx.ch ':') (Rx.pls (.pred (fun c => !pyIsSpace c))))))
      (.cat (Rx.ch '@')
        (.grp 2 (.alt
          (.cat (Rx.pls (.grp 3 (.cat (Rx.pls (.pred (fun c => c.isAlphanum || c = '-')))
                  (Rx.ch '.'))))
            (Rx.rep 2 12 rxAlpha))
          (.cat rxD13 (Rx.rep 3 3 (.grp 4 (.cat (Rx.ch '.') rxD13))))))))

/-- `&([A-Za-z]+|#[Xx]?\d+);`. -/
def RE_HTML_ENTITY : Rx :=
  .cat (Rx.ch '&')
    (.cat (.grp 1 (.alt (Rx.pls rxAlpha)
        (.cat (Rx.ch '#') (.cat (Rx.opt (rxCls "Xx".toList)) (Rx.pls rxD)))))
      (Rx.ch ';'))

/-- `(([\[\(\{\<]+)(\d+[A-Za-z]?|[A-Za-z]\d*|\W+)(\.(\d+|[A-Za-z]))*([\]\)\}\>])+)`. -/
def RE_LIST_ITEM : Rx :=
  .grp 1 (.cat (.grp 2 (Rx.pls (rxCls ['[', '(', '\x7b', '<'])))
    (.cat (.grp 3 (Rx.altN
        [ .cat (Rx.pls rxD) (Rx.opt rxAlpha),
          .cat rxAlpha (.star rxD),
          Rx.pls rxNW ]))
      (.cat (.star (.grp 4 (.cat (Rx.ch '.') (.grp 5 (.alt (Rx.pls rxD) rxAlpha)))))
        (Rx.pls (.grp 6 (rxCls [']', ')', '\x7d', '>']))))))

/-- The apostrophe characters `['’]`. -/
def rxSq : Rx := rxCls ['\'', '’']

/-- `(?i)[a-z](n['’]t|['’](ll|nt|re|ve|[dmstz]))(\W|$)`. -/
def RE_APOSTROPHE : Rx :=
  .cat (.pred Char.isAlpha)
    (.cat (.grp 1 (.alt
        (.cat (Rx.chI 'n') (.cat rxSq (Rx.chI 't')))
        (.cat rxSq (.grp 2 (Rx.altN
          [Rx.strI "ll".toList, Rx.strI "nt".toList, Rx.strI "re".toList,
           Rx.strI "ve".toList, .pred (fun c => "dmstz".toList.contains c.toLower)])))))
      (.grp 3 (.alt rxNW .eos)))

/-- `group(RE_HTML_ENTITY)` search: span of the whole leftmost match. -/
def htmlSearch (s : List Char) : Option (Nat × Nat) := rxSearchSpan RE_HTML_ENTITY s

/-- `group(RE_EMAIL)` search. -/
def emailSearch (s : List Char) : Option (Nat × Nat) := rxSearchSpan RE_EMAIL s

/-- `RE_NETWORK_PROTOCOL.search` (only the span is used by `hyperlink`). -/
def protoSearch (s : List Char) : Option (Nat × Nat) := rxSearchSpan RE_NETWORK_PROTOCOL s

/-- `group(RE_EMOTICON, 1)` search: span of capture group 1 of the leftmost match. -/
def emoSearch (s : List Char) : Option (Nat × Nat) := rxSearchGroup RE_EMOTICON 1 s

/-- `group(RE_LIST_ITEM)` search. -/
def listSearch (s : List Char) : Option (Nat × Nat) := rxSearchSpan RE_LIST_ITEM s

/-- `group(RE_APOSTROPHE, 1)` search. -/
def aposSearch (s : List Char) : Option (Nat × Nat) := rxSearchGroup RE_APOSTROPHE 1 s

/-! ## The three anchored regexes, as direct deterministic matchers

`RE_ABBREVIATION = [A-Za-z0-9]([\.-][A-Za-z0-9])*$` used via `.match` is
anchored at both ends, so the repetition count is forced: the string must be an
alternation `alnum ([.-] alnum)*` covering the whole string.  Likewise
`RE_UNIT = (?i)(\d)(...)$` used via `.search` matches exactly when some
position holds a digit whose entire remaining suffix spells one of the finitely
many unit alternatives (case-insensitively), the match start being the least
such position; and `RE_FINAL_MARK_IN_BETWEEN = ([A-Za-z]{3,})([\.\?\!]+)([A-Za-z]{3,})$`
used via `.match` forces the unique decomposition
letter-prefix / final-mark run / letter rest. -/

/-- Tail of `RE_ABBREVIATION.match`: `([\.-][A-Za-z0-9])*$`. -/
def abbrevTail : List Char → Bool
  | [] => true
  | s :: c :: rest => (s = '.' || s = '-') && c.isAlphanum && abbrevTail rest
  | [_] => false

/-- `RE_ABBREVIATION.match(prev)` as a Boolean: `[A-Za-z0-9]([\.-][A-Za-z0-9])*$`. -/
def RE_ABBREVIATION_match : List Char → Bool
  | [] => false
  | c :: rest => c.isAlphanum && abbrevTail rest

/-- The expanded alternatives of `RE_UNIT`'s group 2 (all lowercase):
`[acdfkmnpyz]?[mg]|[ap]\.m|ch|cwt|d|drc|ft|fur|gr|h|in|lb|lea|mi|ms|oz|pg|qtr|yd`. -/
def unitList : List (List Char) :=
  ["m", "g",
   "am", "cm", "dm", "fm", "km", "mm", "nm", "pm", "ym", "zm",
   "ag", "cg", "dg", "fg", "kg", "mg", "ng", "pg", "yg", "zg",
   "a.m", "p.m",
   "ch", "cwt", "d", "drc", "ft", "fur", "gr", "h", "in", "lb", "lea",
   "mi", "ms", "oz", "pg", "qtr", "yd"].map String.toList

/-- `RE_UNIT.search(token)`: the least `i` with a digit at `i` whose whole
remaining suffix is a unit alternative; returns `m.start(2) = i + 1`.  The fuel
(initialized to `token.length`) bounds the scan; the base case coincides with
running off the end of the token. -/
def RE_UNIT_start2 (token : List Char) : Nat → Nat → Option Nat
  | 0, _ => none
  | fuel + 1, i =>
    if h : i < token.length then
      if (token.get ⟨i, h⟩).isDigit && unitList.contains (lowerStr (token.drop (i+1))) then
        some (i + 1)
      else RE_UNIT_start2 token fuel (i + 1)
    else none

/-- `RE_FINAL_MARK_IN_BETWEEN.match(token)`: on success, the boundaries
`(m.end(1), m.end(2))` of the forced decomposition (with `m.end(3) = len`). -/
def RE_FINAL_MARK_groups (token : List Char) : Option (Nat × Nat) :=
  let p := (token.takeWhile Char.isAlpha).length
  let rest := token.drop p
  let m := (rest.takeWhile (fun c => c = '.' || c = '?' || c = '!')).length
  let bp := rest.drop m
  if 3 ≤ p ∧ 1 ≤ m ∧ 3 ≤ bp.length ∧ bp.all Char.isAlpha then some (p, p + m) else none

/-! ## The tokenizer -/

/-- The word sets and the concatenated-word table loaded in
`EnglishTokenizer.__init__` from the (external) resource directory.  The
hyphen-related set names are shortened. -/
structure TokRes where
  SET_ABBREVIATION_PERIOD : List (List Char)
  SET_APOSTROPHE_FRONT : List (List Char)
  MAP_CONCAT_WORD : List (List Char × List Nat)
  SET_HYPHEN_PRE : List (List Char)
  SET_HYPHEN_SUF : List (List Char)

/-- The mutable `(tokens, offsets)` pair, kept newest-first. -/
abbrev TokSt := List (List Char) × List (Nat × Nat)

/-- `EnglishTokenizer.add_token_aux`: append the token and its offset. -/
def add_token_aux (st : TokSt) (token : List Char) (b e : Nat) : TokSt :=
  (token :: st.1, (b, e) :: st.2)

/-- `concat_token.apostrophe_front`. -/
def apostrophe_front (res : TokRes) (prev curr : List Char) : Bool :=
  prev.length = 1 && is_single_quote (prev.headD ' ') && res.SET_APOSTROPHE_FRONT.contains curr

/-- `concat_token.abbreviation`. -/
def abbreviation (res : TokRes) (prev curr : List Char) : Bool :=
  curr = ['.'] && (RE_ABBREVIATION_match prev || res.SET_ABBREVIATION_PERIOD.contains prev)

/-- `concat_token.acronym` (note: the source passes the un-lowercased
`tokens[-2]` and `token` here, and the lowercased middle token). -/
def acronym (prev curr next : List Char) : Bool :=
  curr.length = 1 && ['&', '|', '/'].contains (curr.headD ' ') &&
    ((prev.length ≤ 2 && next.length ≤ 2) || (pyIsUpperStr prev && pyIsUpperStr next))

/-- `concat_token.hyphenated` (an empty `prev`, impossible in context, yields
`false` where Python would fail on `prev[-1]`). -/
def hyphenated (res : TokRes) (prev curr next : List Char) : Bool :=
  let p := prev.length
  if curr.length = 1 && is_hyphen (curr.headD ' ') then
    if is_digit2 prev ((p : Int) - 3) p && (p = 3 || is_hyphen (prev.getD (p - 4) ' ')) &&
        pyIsDigitStr next then true
    else if (match prev.getLast? with | some c => c.isAlphanum | none => false) &&
        (p = 1 || is_hyphen (prev.getD (p - 2) ' ')) &&
        next.length = 1 && (next.headD ' ').isAlphanum then true
    else (res.SET_HYPHEN_PRE.contains prev && pyIsAlnumStr next) ||
      (res.SET_HYPHEN_SUF.contains next && pyIsAlnumStr prev)
  else false

/-- `EnglishTokenizer.concat_token`.  Returns (merge reported, updated state).
The `no_dot_digit` branch mutates the state but its `True` is discarded by the
source, so it reports `false` here as well. -/
def concat_token (res : TokRes) (st : TokSt) (token : List Char) (b e : Nat) : Bool × TokSt :=
  match st with
  | (t1 :: ts, (b1, e1) :: os) =>
    let prev := lowerStr t1
    let curr := lowerStr token
    if apostrophe_front res prev curr || abbreviation res prev curr then
      (true, ((t1 ++ token) :: ts, (b1, e) :: os))
    else
      match ts, os with
      | t2 :: ts2, (b2, _e2) :: os2 =>
        if acronym t2 (lowerStr t1) token || hyphenated res (lowerStr t2) (lowerStr t1) curr then
          (true, ((t2 ++ t1 ++ token) :: ts2, (b2, e) :: os2))
        else if lowerStr t2 = ['n', 'o'] && lowerStr t1 = ['.'] && (curr.headD ' ').isDigit then
          (false, ((t2 ++ t1) :: ts2, (b2, e1) :: os2))
        else (false, st)
      | _, _ => (false, st)
  | _ => (false, st)

/-- The piece-emitting loop of `split_token.concat_words`. -/
def concat_pieces (token : List Char) (b : Nat) : TokSt → Nat → List Nat → TokSt
  | st, _, [] => st
  | st, i, j :: rest =>
    concat_pieces token b (add_token_aux st (pySlice token i j) (b + i) (b + j)) j rest

/-- `EnglishTokenizer.split_token`: unit suffix, then dictionary concatenation
(an entry with an empty offset list is falsy in Python and does not fire), then
mid-token final marks. -/
def split_token (res : TokRes) (st : TokSt) (token : List Char) (b e : Nat) : Bool × TokSt :=
  match RE_UNIT_start2 token token.length 0 with
  | some s2 =>
    (true, add_token_aux (add_token_aux st (token.take s2) b (b + s2)) (token.drop s2) (b + s2) e)
  | none =>
    match (res.MAP_CONCAT_WORD.find? (fun kv => kv.1 = lowerStr token)).map (fun kv => kv.2) with
    | some (j :: rest) => (true, concat_pieces token b st 0 (j :: rest))
    | _ =>
      match RE_FINAL_MARK_groups token with
      | some (p, q) =>
        (true, add_token_aux
          (add_token_aux (add_token_aux st (token.take p) b (b + p)) (pySlice token p q) (b + p) (b + q))
          (token.drop q) (b + q) (b + token.length))
      | none => (false, st)

/-- `EnglishTokenizer.add_token`: try to merge, else try to split, else append. -/
def add_token (res : TokRes) (st : TokSt) (token : List Char) (b e : Nat) : TokSt :=
  let r1 := concat_token res st token b e
  if r1.1 then r1.2
  else
    let r2 := split_token res r1.2 token b e
    if r2.1 then r2.2 else add_token_aux r1.2 token b e

/-- The type of the recursive `tokenize_aux` callback threaded through the
regex and symbol splitters. -/
abbrev Recur := TokSt → Nat → Nat → Bool × TokSt

/-- `tokenize_symbol.index_last_sequence`, scanning from `j`; the fuel
(initialized to `token.length`) bounds the scan, and the base case coincides
with running off the end of the token. -/
def index_last_sequence (token : List Char) (c : Char) : Nat → Nat → Nat
  | 0, _ => token.length
  | fuel + 1, j =>
    if h : j < token.length then
      if (if is_final_mark c then !is_final_mark (token.get ⟨j, h⟩)
          else token.get ⟨j, h⟩ ≠ c) then j
      else index_last_sequence token c fuel (j + 1)
    else token.length

/-- `tokenize_symbol.skip`: the numeric-format exceptions. -/
def skip (token : List Char) (i : Nat) (c : Char) : Bool :=
  if c = '.' || c = '+' then is_digit1 token ((i : Int) + 1)
  else if c = '-' then i = 0 && is_digit1 token ((i : Int) + 1)
  else if c = ',' then
    is_digit1 token ((i : Int) - 1) && is_digit2 token ((i : Int) + 1) ((i : Int) + 4) &&
      !is_digit1 token ((i : Int) + 4)
  else if c = ':' then is_digit1 token ((i : Int) - 1) && is_digit1 token ((i : Int) + 1)
  else if is_single_quote c then
    is_digit2 token ((i : Int) + 1) ((i : Int) + 3) && !is_digit1 token ((i : Int) + 3)
  else false

/-- `tokenize_symbol.separator_0`. -/
def separator_0 (c : Char) : Bool :=
  [',', ';', ':', '~', '&', '|', '/'].contains c ||
    is_bracket c || is_arrow c || is_double_quote c || is_hyphen c

/-- `tokenize_symbol.edge_symbol_0`. -/
def edge_symbol_0 (c : Char) : Bool := is_single_quote c || is_final_mark c

/-- `tokenize_symbol.currency_like_0`. -/
def currency_like_0 (c : Char) : Bool := c = '#' || is_currency c

/-- `tokenize_symbol.edge_symbol_1`. -/
def edge_symbol_1 (token : List Char) (i j : Nat) : Bool :=
  i + 1 < j || i = 0 || j = token.length ||
    is_punct (token.getD (i - 1) 'a') || is_punct (token.getD j 'a')

/-- `tokenize_symbol.currency_like_1`. -/
def currency_like_1 (token : List Char) (i j : Nat) : Bool :=
  i + 1 < j || j = token.length || (token.getD j 'a').isDigit

/-- The split performed by `tokenize_symbol.split` / `tokenize_regex.group`:
resolve `[b, b+i)` recursively, add `token[i:j]`, resolve `[b+j, e)` recursively. -/
def do_split (recur : Recur) (res : TokRes) (st : TokSt) (b e : Nat)
    (token : List Char) (i j : Nat) : TokSt :=
  let s1 := (recur st b (b + i)).2
  let s2 := add_token res s1 (pySlice token i j) (b + i) (b + j)
  (recur s2 (b + j) e).2

/-- The character loop of `EnglishTokenizer.tokenize_symbol`; the fuel
(initialized to `token.length`) bounds the scan, and the base case coincides
with running off the end of the token. -/
def sym_loop (recur : Recur) (res : TokRes) (st : TokSt) (b e : Nat) (token : List Char) :
    Nat → Nat → Bool × TokSt
  | 0, _ => (false, st)
  | fuel + 1, i =>
    if h : i < token.length then
      let c := token.get ⟨i, h⟩
      if skip token i c then sym_loop recur res st b e token fuel (i + 1)
      else if separator_0 c then
        (true, do_split recur res st b e token i (index_last_sequence token c token.length (i + 1)))
      else if edge_symbol_0 c && edge_symbol_1 token i (index_last_sequence token c token.length (i + 1)) then
        (true, do_split recur res st b e token i (index_last_sequence token c token.length (i + 1)))
      else if currency_like_0 c && currency_like_1 token i (index_last_sequence token c token.length (i + 1)) then
        (true, do_split recur res st b e token i (index_last_sequence token c token.length (i + 1)))
      else sym_loop recur res st b e token fuel (i + 1)
    else (false, st)

/-- `EnglishTokenizer.tokenize_symbol`. -/
def tokenize_symbol (recur : Recur) (res : TokRes) (st : TokSt) (b e : Nat)
    (token : List Char) : Bool × TokSt :=
  sym_loop recur res st b e token token.length 0

/-- `tokenize_regex.group`: fire on a pattern match, emitting the matched
sub-range as one token between two recursive resolutions. -/
def rgx_group (recur : Recur) (res : TokRes) (st : TokSt) (b e : Nat) (token : List Char)
    (search : List Char → Option (Nat × Nat)) : Option TokSt :=
  match search token with
  | some (i, l) => some (do_split recur res st b e token i l)
  | none => none

/-- `tokenize_regex.hyperlink`: a protocol starting mid-span takes everything
to the end of the span as one token; at position 0 the whole span is one token. -/
def rgx_hyperlink (recur : Recur) (res : TokRes) (st : TokSt) (b e : Nat)
    (token : List Char) : Option TokSt :=
  match protoSearch token with
  | some (i, _) =>
    if 0 < i then
      some (add_token res ((recur st b (b + i)).2) (token.drop i) (b + i) e)
    else some (add_token res st token b e)
  | none => none

/-- `EnglishTokenizer.tokenize_regex`: the six patterns in source order. -/
def tokenize_regex (recur : Recur) (res : TokRes) (st : TokSt) (b e : Nat)
    (token : List Char) : Bool × TokSt :=
  match rgx_group recur res st b e token htmlSearch with
  | some s => (true, s)
  | none =>
  match rgx_group recur res st b e token emailSearch with
  | some s => (true, s)
  | none =>
  match rgx_hyperlink recur res st b e token with
  | some s => (true, s)
  | none =>
  match rgx_group recur res st b e token emoSearch with
  | some s => (true, s)
  | none =>
  match rgx_group recur res st b e token listSearch with
  | some s => (true, s)
  | none =>
  match rgx_group recur res st b e token aposSearch with
  | some s => (true, s)
  | none => (false, st)

/-- The test of `EnglishTokenizer.tokenize_trivial`. -/
def tokenize_trivial (token : List Char) (b e : Nat) : Bool :=
  e - b = 1 || pyIsAlnumStr token

/-- One unfolding of `EnglishTokenizer.tokenize_aux`, parameterized by the
recursive callback. -/
def tokenize_aux_step (recur : Recur) (res : TokRes) (text : List Char) (st : TokSt)
    (b e : Nat) : Bool × TokSt :=
  if e ≤ b || text.length < e then (false, st)
  else
    let token := pySlice text b e
    if tokenize_trivial token b e then (true, add_token res st token b e)
    else
      let r2 := tokenize_regex recur res st b e token
      if r2.1 then (true, r2.2)
      else
        let r3 := tokenize_symbol recur res st b e token
        if r3.1 then (true, r3.2)
        else (true, add_token res st token b e)

/-- `EnglishTokenizer.tokenize_aux`, with fuel bounding the recursion depth.
Every recursive call strictly shrinks `e - b` (proved below), so any fuel
of at least `e - b` computes the Python function. -/
def tokenize_aux (res : TokRes) (text : List Char) : Nat → TokSt → Nat → Nat → Bool × TokSt
  | 0, st, _, _ => (false, st)
  | f + 1, st, b, e =>
    tokenize_aux_step (fun st2 b2 e2 => tokenize_aux res text f st2 b2 e2) res text st b e

/-- The in-between-spaces loop of `EnglishTokenizer.tokenize` (the iteration
range is fixed before the loop mutates `begin`). -/
def tokenize_scan (res : TokRes) (text : List Char) (fuel : Nat) :
    List Nat → Nat → TokSt → Nat × TokSt
  | [], b, st => (b, st)
  | i :: rest, b, st =>
    if pyIsSpace (text.getD i ' ') then
      tokenize_scan res text fuel rest (i + 1) ((tokenize_aux res text fuel st b i).2)
    else tokenize_scan res text fuel rest b st

/-- `EnglishTokenizer.tokenize`. -/
def tokenize (res : TokRes) (text : List Char) : List (List Char) × List (Nat × Nat) :=
  if text.isEmpty || text.all pyIsSpace then ([], [])
  else
    let b0 := text.findIdx (fun c => !pyIsSpace c)
    let lst := text.length - text.reverse.findIdx (fun c => !pyIsSpace c)
    let fuel := text.length + 1
    let p := tokenize_scan res text fuel (List.range' (b0 + 1) (lst - (b0 + 1))) b0 ([], [])
    let st2 := (tokenize_aux res text fuel p.2 p.1 lst).2
    (st2.1.reverse, st2.2.reverse)

/-! ## `Tokenizer.offsets` and `SpaceTokenizer` -/

/-- Python `text.index(token, s)`: least occurrence position at or after `s`,
`none` standing for the raised `ValueError`.  The fuel (initialized to
`text.length + 1`) bounds the scan; when it runs out the position is past the
end of the text, where the unbounded search would report failure as well. -/
def index_from (text token : List Char) : Nat → Nat → Option Nat
  | 0, _ => none
  | fuel + 1, s =>
    if h : s + token.length ≤ text.length then
      if pySlice text s (s + token.length) = token then some s
      else index_from text token fuel (s + 1)
    else none

/-- The comprehension of `Tokenizer.offsets`, with the running `end`. -/
def offsets_aux (text : List Char) : Nat → List (List Char) → Option (List (Nat × Nat))
  | _, [] => some []
  | e, t :: ts =>
    (index_from text t (text.length + 1) e).bind fun b =>
      (offsets_aux text (b + t.length) ts).map fun os => (b, b + t.length) :: os

/-- `Tokenizer.offsets(text, tokens)`; `none` models the raised error
("token not found in source text"). -/
def offsets (text : List Char) (toks : List (List Char)) : Option (List (Nat × Nat)) :=
  offsets_aux text 0 toks

/-- Python `str.split()` with no argument: split on whitespace runs,
discarding empty pieces.  The fuel (initialized to the list's length, a bound
on the recursion depth) makes the recursion structural; the base case is only
reached on the empty list, where it agrees with the empty-list case. -/
def pySplit : Nat → List Char → List (List Char)
  | 0, _ => []
  | _ + 1, [] => []
  | fuel + 1, c :: rest =>
    if pyIsSpace c then pySplit fuel rest
    else (c :: rest.takeWhile (fun d => !pyIsSpace d)) ::
      pySplit fuel (rest.dropWhile (fun d => !pyIsSpace d))

/-- `SpaceTokenizer.tokenize`; `none` would model the offset-reconstruction
error propagating (proved unreachable below). -/
def space_tokenize (text : List Char) : Option (List (List Char) × List (Nat × Nat)) :=
  (offsets text (pySplit text.length text)).map fun os => (pySplit text.length text, os)

/-! ## Specification predicates -/

/-- The `(tokens, offsets)` state (newest first) tiles `[lo, hi)`: offsets are
consecutive, each token nonempty and equal to its text slice. -/
inductive RTiles (text : List Char) :
    List (List Char) → List (Nat × Nat) → Nat → Nat → Prop where
  | nil : ∀ lo, RTiles text [] [] lo lo
  | cons : ∀ t ts b e os lo, t = pySlice text b e → b < e →
      RTiles text ts os lo b → RTiles text (t :: ts) ((b, e) :: os) lo e

/-- Position `pos` lies in one of the offset ranges. -/
def covers (offs : List (Nat × Nat)) (pos : Nat) : Prop :=
  ∃ p ∈ offs, p.1 ≤ pos ∧ pos < p.2

/-- The non-whitespace characters of `text` form one contiguous block
(equivalently: the text contains no interior whitespace between
non-whitespace characters). -/
abbrev OneSpan (text : List Char) : Prop :=
  ∀ k < text.length, ∀ j ≤ k, ∀ i ≤ j,
    pyIsSpace (text.getD i ' ') = false → pyIsSpace (text.getD k ' ') = false →
      pyIsSpace (text.getD j ' ') = false

/-- Well-formedness of the concatenated-word table, as produced by
`read_concat_word_dict` from well-formed resource lines: each entry's split
offsets are strictly increasing, positive, and end at the key's length. -/
abbrev WFConcat (res : TokRes) : Prop :=
  ∀ kv ∈ res.MAP_CONCAT_WORD,
    List.Chain' (fun a b => a < b) (0 :: kv.2) ∧ kv.2 ≠ [] ∧
      kv.2.getLast? = some kv.1.length

/-- The spec's description of `Tokenizer.offsets`: process the tokens in
order, matching each at its first occurrence at or after the end of the
previous match. -/
inductive GreedySpec (text : List Char) : Nat → List (List Char) → List (Nat × Nat) → Prop where
  | nil : ∀ e, GreedySpec text e [] []
  | cons : ∀ e t ts b os,
      e ≤ b →
      pySlice text b (b + t.length) = t →
      (∀ j, e ≤ j → j < b → pySlice text j (j + t.length) ≠ t) →
      GreedySpec text (b + t.length) ts os →
      GreedySpec text e (t :: ts) ((b, b + t.length) :: os)

/-- Stated from the spec wording (C6): position `k` of `tok` exists and holds
a digit. -/
def spec_digit_at (tok : List Char) (k : Nat) : Prop :=
  k < tok.length ∧ (tok.getD k ' ').isDigit = true

/-- Stated from the spec wording (C6): positions `a ≤ k < b` of `tok` all
exist and hold digits ("followed by exactly `b - a` digits"). -/
def spec_digits_upto (tok : List Char) (a b : Nat) : Prop :=
  b ≤ tok.length ∧ ∀ k, a ≤ k → k < b → (tok.getD k ' ').isDigit = true

/-- Stated from the spec wording (C6): the five exemption conditions of
`tokenize_symbol.skip`, phrased independently of the code. -/
def spec_skip_conditions (token : List Char) (i : Nat) (c : Char) : Prop :=
  ((c = '.' ∨ c = '+') ∧ spec_digit_at token (i + 1)) ∨
  (c = '-' ∧ i = 0 ∧ spec_digit_at token (i + 1)) ∨
  (c = ',' ∧ (0 < i ∧ spec_digit_at token (i - 1)) ∧
    spec_digits_upto token (i + 1) (i + 4) ∧ ¬ spec_digit_at token (i + 4)) ∨
  (c = ':' ∧ (0 < i ∧ spec_digit_at token (i - 1)) ∧ spec_digit_at token (i + 1)) ∨
  (is_single_quote c = true ∧
    spec_digits_upto token (i + 1) (i + 3) ∧ ¬ spec_digit_at token (i + 3))

/-- Stated from the spec wording (C8): the tokens occur as slices of `text`
in left-to-right order, the first at or after position `e`. -/
def OccursFrom (text : List Char) : Nat → List (List Char) → Prop
  | _, [] => True
  | e, t :: ts => ∃ b, e ≤ b ∧ pySlice text b (b + t.length) = t ∧
      OccursFrom text (b + t.length) ts

/-- Empty resources, used for concrete evaluations. -/
def res0 : TokRes := ⟨[], [], [], [], []⟩

/-! ## Slice lemmas -/

theorem pySlice_length (l : List Char) (b e : Nat) (hb : b ≤ e) (he : e ≤ l.length) :
    (pySlice l b e).length = e - b := by
  simp [pySlice]
  omega

theorem pySlice_append (l : List Char) (b m e : Nat) (h1 : b ≤ m) (h2 : m ≤ e) :
    pySlice l b m ++ pySlice l m e = pySlice l b e := by
  unfold pySlice
  have hd : l.drop m = (l.drop b).drop (m - b) := by
    rw [List.drop_drop]
    congr 1
    omega
  rw [hd]
  have : e - b = (m - b) + (e - m) := by omega
  rw [this, List.take_add]

theorem pySlice_ne_nil (l : List Char) (b e : Nat) (hb : b < e) (he : e ≤ l.length) :
    pySlice l b e ≠ [] := by
  have := pySlice_length l b e (by omega) he
  intro hc
  rw [hc] at this
  simp at this
  omega

theorem length_takeWhile_le_char (p : Char → Bool) (l : List Char) :
    (l.takeWhile p).length ≤ l.length := by
  induction l with
  | nil => simp
  | cons c rest ih =>
    rw [List.takeWhile]
    by_cases h : p c
    · rw [h]
      simpa using ih
    · simp [h]

theorem pySlice_take (l : List Char) (b e k : Nat) (hk : k ≤ e - b) :
    (pySlice l b e).take k = pySlice l b (b + k) := by
  unfold pySlice
  rw [List.take_take]
  congr 1
  omega

theorem pySlice_drop (l : List Char) (b e k : Nat) :
    (pySlice l b e).drop k = pySlice l (b + k) e := by
  unfold pySlice
  rw [List.drop_take, List.drop_drop]
  congr 1
  omega

theorem pySlice_sub (l : List Char) (b e i j : Nat) (hij : i ≤ j) (hj : j ≤ e - b) :
    pySlice (pySlice l b e) i j = pySlice l (b + i) (b + j) := by
  have h1 : pySlice (pySlice l b e) i j = ((pySlice l b e).drop i).take (j - i) := rfl
  rw [h1, pySlice_drop]
  rw [pySlice_take l (b + i) e (j - i) (by omega)]
  congr 1
  omega

/-! ## Engine bound lemmas -/

theorem starIter_ge (body : Nat → List (Nat × Caps)) (slen : Nat) :
    ∀ fuel i, ∀ jc ∈ starIter body slen fuel i, i ≤ jc.1 := by
  intro fuel
  induction fuel with
  | zero =>
    intro i ⟨j, cs⟩ hjc
    rw [starIter] at hjc
    simp only [List.mem_singleton, Prod.mk.injEq] at hjc
    omega
  | succ fuel ih =>
    intro i ⟨j, cs⟩ hjc
    rw [starIter] at hjc
    simp only [List.mem_append, List.mem_flatMap, List.mem_filter, List.mem_map,
      List.mem_singleton, Prod.mk.injEq, Bool.and_eq_true, decide_eq_true_eq] at hjc
    rcases hjc with ⟨x, ⟨_, hx1, hx2⟩, y, hy, hj, hc⟩ | ⟨hj, hc⟩
    · have := ih x.1 y hy
      omega
    · omega

theorem starIter_le (body : Nat → List (Nat × Caps)) (slen : Nat) :
    ∀ fuel i, i ≤ slen → ∀ jc ∈ starIter body slen fuel i, jc.1 ≤ slen := by
  intro fuel
  induction fuel with
  | zero =>
    intro i hle ⟨j, cs⟩ hjc
    rw [starIter] at hjc
    simp only [List.mem_singleton, Prod.mk.injEq] at hjc
    omega
  | succ fuel ih =>
    intro i hle ⟨j, cs⟩ hjc
    rw [starIter] at hjc
    simp only [List.mem_append, List.mem_flatMap, List.mem_filter, List.mem_map,
      List.mem_singleton, Prod.mk.injEq, Bool.and_eq_true, decide_eq_true_eq] at hjc
    rcases hjc with ⟨x, ⟨_, hx1, hx2⟩, y, hy, hj, hc⟩ | ⟨hj, hc⟩
    · have := ih x.1 hx2 y hy
      omega
    · omega

theorem starIter_caps (body : Nat → List (Nat × Caps)) (slen : Nat) (P : Nat → Prop)
    (hbody : ∀ i2, ∀ jc ∈ body i2, ∀ g u v, (g, u, v) ∈ jc.2 →
      i2 ≤ u ∧ u ≤ v ∧ v ≤ jc.1 ∧ (P g → u < v)) :
    ∀ fuel i, ∀ jc ∈ starIter body slen fuel i, ∀ g u v, (g, u, v) ∈ jc.2 →
      i ≤ u ∧ u ≤ v ∧ v ≤ jc.1 ∧ (P g → u < v) := by
  intro fuel
  induction fuel with
  | zero =>
    intro i ⟨j, cs⟩ hjc g u v hm
    rw [starIter] at hjc
    simp only [List.mem_singleton, Prod.mk.injEq] at hjc
    rw [hjc.2] at hm
    simp at hm
  | succ fuel ih =>
    intro i ⟨j, cs⟩ hjc g u v hm
    rw [starIter] at hjc
    simp only [List.mem_append, List.mem_flatMap, List.mem_filter, List.mem_map,
      List.mem_singleton, Prod.mk.injEq, Bool.and_eq_true, decide_eq_true_eq] at hjc
    rcases hjc with ⟨x, ⟨hxm, hx1, hx2⟩, y, hy, hj, hc⟩ | ⟨hj, hc⟩
    · have hyge := starIter_ge body slen fuel x.1 y hy
      rw [← hc] at hm
      rcases List.mem_append.mp hm with hmy | hmx
      · have := ih x.1 y hy g u v hmy
        exact ⟨by omega, this.2.1, by omega, this.2.2.2⟩
      · have := hbody i x hxm g u v hmx
        exact ⟨this.1, this.2.1, by omega, this.2.2.2⟩
    · rw [hc] at hm
      simp at hm

theorem mRx_start_le (re : Rx) (s : List Char) :
    ∀ i, ∀ jc ∈ mRx re s i, i ≤ jc.1 := by
  induction re with
  | eps =>
    intro i ⟨j, cs⟩ hjc
    rw [mRx] at hjc
    simp only [List.mem_singleton, Prod.mk.injEq] at hjc
    omega
  | pred p =>
    intro i ⟨j, cs⟩ hjc
    rw [mRx] at hjc
    by_cases h : i < s.length
    · rw [dif_pos h] at hjc
      by_cases hp : p (s.get ⟨i, h⟩) = true
      · rw [if_pos hp] at hjc
        simp only [List.mem_singleton, Prod.mk.injEq] at hjc
        omega
      · rw [if_neg hp] at hjc
        simp at hjc
    · rw [dif_neg h] at hjc
      simp at hjc
  | eos =>
    intro i ⟨j, cs⟩ hjc
    rw [mRx] at hjc
    by_cases h : i = s.length
    · rw [if_pos h] at hjc
      simp only [List.mem_singleton, Prod.mk.injEq] at hjc
      omega
    · rw [if_neg h] at hjc
      simp at hjc
  | cat a b iha ihb =>
    intro i ⟨j, cs⟩ hjc
    rw [mRx] at hjc
    simp only [List.mem_flatMap, List.mem_map, Prod.mk.injEq] at hjc
    obtain ⟨x, hx, y, hy, hj, hc⟩ := hjc
    have h1 := iha i x hx
    have h2 := ihb x.1 y hy
    omega
  | alt a b iha ihb =>
    intro i jc hjc
    rw [mRx] at hjc
    rcases List.mem_append.mp hjc with h | h
    · exact iha i jc h
    · exact ihb i jc h
  | star a iha =>
    intro i jc hjc
    rw [mRx] at hjc
    exact starIter_ge (fun j => mRx a s j) s.length (s.length - i) i jc hjc
  | grp n a iha =>
    intro i ⟨j, cs⟩ hjc
    rw [mRx] at hjc
    simp only [List.mem_map, Prod.mk.injEq] at hjc
    obtain ⟨y, hy, hj, hc⟩ := hjc
    have := iha i y hy
    omega

theorem mRx_end_le (re : Rx) (s : List Char) :
    ∀ i, i ≤ s.length → ∀ jc ∈ mRx re s i, jc.1 ≤ s.length := by
  induction re with
  | eps =>
    intro i hle ⟨j, cs⟩ hjc
    rw [mRx] at hjc
    simp only [List.mem_singleton, Prod.mk.injEq] at hjc
    omega
  | pred p =>
    intro i hle ⟨j, cs⟩ hjc
    rw [mRx] at hjc
    by_cases h : i < s.length
    · rw [dif_pos h] at hjc
      by_cases hp : p (s.get ⟨i, h⟩) = true
      · rw [if_pos hp] at hjc
        simp only [List.mem_singleton, Prod.mk.injEq] at hjc
        omega
      · rw [if_neg hp] at hjc
        simp at hjc
    · rw [dif_neg h] at hjc
      simp at hjc
  | eos =>
    intro i hle ⟨j, cs⟩ hjc
    rw [mRx] at hjc
    by_cases h : i = s.length
    · rw [if_pos h] at hjc
      simp only [List.mem_singleton, Prod.mk.injEq] at hjc
      omega
    · rw [if_neg h] at hjc
      simp at hjc
  | cat a b iha ihb =>
    intro i hle ⟨j, cs⟩ hjc
    rw [mRx] at hjc
    simp only [List.mem_flatMap, List.mem_map, Prod.mk.injEq] at hjc
    obtain ⟨x, hx, y, hy, hj, hc⟩ := hjc
    have h1 := iha i hle x hx
    have h2 := ihb x.1 h1 y hy
    omega
  | alt a b iha ihb =>
    intro i hle jc hjc
    rw [mRx] at hjc
    rcases List.mem_append.mp hjc with h | h
    · exact iha i hle jc h
    · exact ihb i hle jc h
  | star a iha =>
    intro i hle jc hjc
    rw [mRx] at hjc
    exact starIter_le (fun j => mRx a s j) s.length (s.length - i) i hle jc hjc
  | grp n a iha =>
    intro i hle ⟨j, cs⟩ hjc
    rw [mRx] at hjc
    simp only [List.mem_map, Prod.mk.injEq] at hjc
    obtain ⟨y, hy, hj, hc⟩ := hjc
    have := iha i hle y hy
    omega

theorem mRx_consumes (re : Rx) (s : List Char) :
    re.consumes = true → ∀ i, ∀ jc ∈ mRx re s i, i < jc.1 := by
  induction re with
  | eps => intro hcon; simp [Rx.consumes] at hcon
  | pred p =>
    intro _ i ⟨j, cs⟩ hjc
    rw [mRx] at hjc
    by_cases h : i < s.length
    · rw [dif_pos h] at hjc
      by_cases hp : p (s.get ⟨i, h⟩) = true
      · rw [if_pos hp] at hjc
        simp only [List.mem_singleton, Prod.mk.injEq] at hjc
        omega
      · rw [if_neg hp] at hjc
        simp at hjc
    · rw [dif_neg h] at hjc
      simp at hjc
  | eos => intro hcon; simp [Rx.consumes] at hcon
  | cat a b iha ihb =>
    intro hcon i ⟨j, cs⟩ hjc
    rw [mRx] at hjc
    simp only [List.mem_flatMap, List.mem_map, Prod.mk.injEq] at hjc
    obtain ⟨x, hx, y, hy, hj, hc⟩ := hjc
    simp only [Rx.consumes, Bool.or_eq_true] at hcon
    rcases hcon with hca | hcb
    · have h1 := iha hca i x hx
      have h2 := mRx_start_le b s x.1 y hy
      omega
    · have h1 := mRx_start_le a s i x hx
      have h2 := ihb hcb x.1 y hy
      omega
  | alt a b iha ihb =>
    intro hcon i jc hjc
    simp only [Rx.consumes, Bool.and_eq_true] at hcon
    rw [mRx] at hjc
    rcases List.mem_append.mp hjc with h | h
    · exact iha hcon.1 i jc h
    · exact ihb hcon.2 i jc h
  | star a iha => intro hcon; simp [Rx.consumes] at hcon
  | grp n a iha =>
    intro hcon i ⟨j, cs⟩ hjc
    simp only [Rx.consumes] at hcon
    rw [mRx] at hjc
    simp only [List.mem_map, Prod.mk.injEq] at hjc
    obtain ⟨y, hy, hj, hc⟩ := hjc
    have := iha hcon i y hy
    omega

theorem mRx_caps (re : Rx) (s : List Char) :
    ∀ i, ∀ jc ∈ mRx re s i, ∀ g u v, (g, u, v) ∈ jc.2 →
      i ≤ u ∧ u ≤ v ∧ v ≤ jc.1 ∧ (re.grpConsumes g = true → u < v) := by
  induction re with
  | eps =>
    intro i ⟨j, cs⟩ hjc g u v hm
    rw [mRx] at hjc
    simp only [List.mem_singleton, Prod.mk.injEq] at hjc
    rw [hjc.2] at hm
    simp at hm
  | pred p =>
    intro i ⟨j, cs⟩ hjc g u v hm
    rw [mRx] at hjc
    by_cases h : i < s.length
    · rw [dif_pos h] at hjc
      by_cases hp : p (s.get ⟨i, h⟩) = true
      · rw [if_pos hp] at hjc
        simp only [List.mem_singleton, Prod.mk.injEq] at hjc
        rw [hjc.2] at hm
        simp at hm
      · rw [if_neg hp] at hjc
        simp at hjc
    · rw [dif_neg h] at hjc
      simp at hjc
  | eos =>
    intro i ⟨j, cs⟩ hjc g u v hm
    rw [mRx] at hjc
    by_cases h : i = s.length
    · rw [if_pos h] at hjc
      simp only [List.mem_singleton, Prod.mk.injEq] at hjc
      rw [hjc.2] at hm
      simp at hm
    · rw [if_neg h] at hjc
      simp at hjc
  | cat a b iha ihb =>
    intro i ⟨j, cs⟩ hjc g u v hm
    rw [mRx] at hjc
    simp only [List.mem_flatMap, List.mem_map, Prod.mk.injEq] at hjc
    obtain ⟨x, hx, y, hy, hj, hc⟩ := hjc
    simp only [Rx.grpConsumes, Bool.and_eq_true]
    have hxle := mRx_start_le a s i x hx
    have hyle := mRx_start_le b s x.1 y hy
    rw [← hc] at hm
    rcases List.mem_append.mp hm with hmy | hmx
    · have := ihb x.1 y hy g u v hmy
      refine ⟨by omega, by omega, by omega, ?_⟩
      intro hgc
      exact this.2.2.2 hgc.2
    · have := iha i x hx g u v hmx
      refine ⟨by omega, by omega, by omega, ?_⟩
      intro hgc
      exact this.2.2.2 hgc.1
  | alt a b iha ihb =>
    intro i jc hjc g u v hm
    simp only [Rx.grpConsumes, Bool.and_eq_true]
    rw [mRx] at hjc
    rcases List.mem_append.mp hjc with h | h
    · have := iha i jc h g u v hm
      exact ⟨this.1, this.2.1, this.2.2.1, fun hgc => this.2.2.2 hgc.1⟩
    · have := ihb i jc h g u v hm
      exact ⟨this.1, this.2.1, this.2.2.1, fun hgc => this.2.2.2 hgc.2⟩
  | star a iha =>
    intro i jc hjc g u v hm
    simp only [Rx.grpConsumes]
    rw [mRx] at hjc
    exact starIter_caps (fun j => mRx a s j) s.length
      (fun g2 => a.grpConsumes g2 = true)
      (fun i2 jc2 hjc2 g2 u2 v2 hm2 => iha i2 jc2 hjc2 g2 u2 v2 hm2)
      (s.length - i) i jc hjc g u v hm
  | grp n a iha =>
    intro i ⟨j, cs⟩ hjc g u v hm
    rw [mRx] at hjc
    simp only [List.mem_map, Prod.mk.injEq] at hjc
    obtain ⟨y, hy, hj, hc⟩ := hjc
    simp only [Rx.grpConsumes, Bool.and_eq_true]
    have hyge := mRx_start_le a s i y hy
    rw [← hc] at hm
    rcases List.mem_cons.mp hm with hm1 | hm2
    · rw [Prod.mk.injEq] at hm1
      obtain ⟨hg, huv⟩ := hm1
      rw [Prod.mk.injEq] at huv
      obtain ⟨hu, hv⟩ := huv
      refine ⟨by omega, by omega, by omega, ?_⟩
      intro hgc
      have hng : n = g := by omega
      rw [if_pos hng] at hgc
      have := mRx_consumes a s hgc.1 i y hy
      omega
    · have := iha i y hy g u v hm2
      refine ⟨this.1, this.2.1, by omega, ?_⟩
      intro hgc
      by_cases hng : n = g
      · rw [if_pos hng] at hgc
        exact this.2.2.2 hgc.2
      · rw [if_neg hng] at hgc
        exact this.2.2.2 hgc.2

theorem rxSearchFrom_spec (re : Rx) (s : List Char) :
    ∀ fuel i0, i0 ≤ s.length → ∀ r, rxSearchFrom re s fuel i0 = some r →
      i0 ≤ r.1 ∧ r.1 ≤ s.length ∧ r.2 ∈ mRx re s r.1 := by
  intro fuel
  induction fuel with
  | zero =>
    intro i0 _ r hr
    rw [rxSearchFrom] at hr
    cases hr
  | succ fuel ih =>
    intro i0 hle r hr
    rw [rxSearchFrom] at hr
    cases hh : (mRx re s i0).head? with
    | some jc =>
      obtain ⟨j, c⟩ := jc
      rw [hh] at hr
      change some (i0, j, c) = some r at hr
      injection hr with hr
      subst hr
      exact ⟨le_refl _, hle, List.mem_of_mem_head? hh⟩
    | none =>
      rw [hh] at hr
      change (if i0 < s.length then rxSearchFrom re s fuel (i0 + 1) else none) = some r at hr
      by_cases hlt : i0 < s.length
      · rw [if_pos hlt] at hr
        have := ih (i0 + 1) (by omega) r hr
        exact ⟨by omega, this.2.1, this.2.2⟩
      · rw [if_neg hlt] at hr
        cases hr

theorem rxSearchSpan_bounds (re : Rx) (s : List Char) (i j : Nat)
    (hc : re.consumes = true) (h : rxSearchSpan re s = some (i, j)) :
    i < j ∧ j ≤ s.length := by
  unfold rxSearchSpan rxSearch at h
  cases hr : rxSearchFrom re s (s.length + 1) 0 with
  | none => rw [hr] at h; exact Option.noConfusion h
  | some r =>
    rw [hr] at h
    simp only [Option.map_some', Option.some.injEq, Prod.mk.injEq] at h
    obtain ⟨hi, hj⟩ := h
    have hspec := rxSearchFrom_spec re s (s.length + 1) 0 (by omega) r hr
    have h1 := mRx_consumes re s hc r.1 r.2 hspec.2.2
    have h2 := mRx_end_le re s r.1 hspec.2.1 r.2 hspec.2.2
    omega

theorem rxSearchGroup_bounds (re : Rx) (g : Nat) (s : List Char) (u v : Nat)
    (hg : re.grpConsumes g = true) (h : rxSearchGroup re g s = some (u, v)) :
    u < v ∧ v ≤ s.length := by
  unfold rxSearchGroup rxSearch at h
  cases hr : rxSearchFrom re s (s.length + 1) 0 with
  | none => rw [hr] at h; exact Option.noConfusion h
  | some r =>
    rw [hr] at h
    simp only [Option.bind_eq_bind, Option.some_bind] at h
    cases hf : r.2.2.find? (fun t => t.1 = g) with
    | none => rw [hf] at h; exact Option.noConfusion h
    | some t =>
      rw [hf] at h
      simp only [Option.map_some', Option.some.injEq, Prod.mk.injEq] at h
      obtain ⟨hu, hv⟩ := h
      have hspec := rxSearchFrom_spec re s (s.length + 1) 0 (by omega) r hr
      have hmem := List.mem_of_find?_eq_some hf
      have hpred := List.find?_some hf
      simp only [decide_eq_true_eq] at hpred
      have hcap : (g, t.2.1, t.2.2) ∈ r.2.2 := by
        rw [← hpred]
        exact hmem
      have h1 := mRx_caps re s r.1 r.2 hspec.2.2 g t.2.1 t.2.2 hcap
      have h2 := mRx_end_le re s r.1 hspec.2.1 r.2 hspec.2.2
      have h3 := h1.2.2.2 hg
      omega

/-! ## Bounds for the six searchers and the direct matchers -/

theorem htmlSearch_bounds (s : List Char) (i j : Nat) (h : htmlSearch s = some (i, j)) :
    i < j ∧ j ≤ s.length :=
  rxSearchSpan_bounds RE_HTML_ENTITY s i j (by decide) h

theorem emailSearch_bounds (s : List Char) (i j : Nat) (h : emailSearch s = some (i, j)) :
    i < j ∧ j ≤ s.length :=
  rxSearchSpan_bounds RE_EMAIL s i j (by decide) h

theorem protoSearch_bounds (s : List Char) (i j : Nat) (h : protoSearch s = some (i, j)) :
    i < j ∧ j ≤ s.length :=
  rxSearchSpan_bounds RE_NETWORK_PROTOCOL s i j (by decide) h

theorem emoSearch_bounds (s : List Char) (i j : Nat) (h : emoSearch s = some (i, j)) :
    i < j ∧ j ≤ s.length :=
  rxSearchGroup_bounds RE_EMOTICON 1 s i j (by decide) h

theorem listSearch_bounds (s : List Char) (i j : Nat) (h : listSearch s = some (i, j)) :
    i < j ∧ j ≤ s.length :=
  rxSearchSpan_bounds RE_LIST_ITEM s i j (by decide) h

theorem aposSearch_bounds (s : List Char) (i j : Nat) (h : aposSearch s = some (i, j)) :
    i < j ∧ j ≤ s.length :=
  rxSearchGroup_bounds RE_APOSTROPHE 1 s i j (by decide) h

theorem RE_UNIT_start2_bounds (token : List Char) :
    ∀ fuel i0, ∀ s2, RE_UNIT_start2 token fuel i0 = some s2 →
      i0 < s2 ∧ s2 < token.length := by
  intro fuel
  induction fuel with
  | zero =>
    intro i0 s2 h
    rw [RE_UNIT_start2] at h
    cases h
  | succ n ih =>
    intro i0 s2 h
    rw [RE_UNIT_start2] at h
    by_cases hlt : i0 < token.length
    · rw [dif_pos hlt] at h
      by_cases hcond :
          ((token.get ⟨i0, hlt⟩).isDigit && unitList.contains (lowerStr (token.drop (i0 + 1)))) = true
      · rw [if_pos hcond] at h
        injection h with h
        subst h
        refine ⟨by omega, ?_⟩
        rw [Bool.and_eq_true] at hcond
        have hmem : lowerStr (token.drop (i0 + 1)) ∈ unitList := by
          simpa using hcond.2
        have hne : ∀ u ∈ unitList, u ≠ [] := by decide
        have hlow := hne _ hmem
        have hdne : token.drop (i0 + 1) ≠ [] := by
          intro hc
          apply hlow
          rw [hc]
          rfl
        by_contra hc
        push_neg at hc
        rw [List.drop_eq_nil_iff.mpr (by omega)] at hdne
        exact hdne rfl
      · rw [if_neg hcond] at h
        have := ih (i0 + 1) s2 h
        omega
    · rw [dif_neg hlt] at h
      cases h

theorem RE_FINAL_MARK_groups_bounds (token : List Char) (p q : Nat)
    (h : RE_FINAL_MARK_groups token = some (p, q)) :
    3 ≤ p ∧ p < q ∧ q + 3 ≤ token.length := by
  unfold RE_FINAL_MARK_groups at h
  dsimp only at h
  split at h
  · rename_i hcond
    injection h with h
    rw [Prod.mk.injEq] at h
    obtain ⟨hp, hq⟩ := h
    have h1 := hcond.1
    have h2 := hcond.2.1
    have h3 := hcond.2.2.1
    simp only [List.length_drop] at h3
    have htwle := length_takeWhile_le_char Char.isAlpha token
    omega
  · cases h

/-! ## Tiling-invariant lemmas -/

theorem RTiles_le (text : List Char) (ts : List (List Char)) (os : List (Nat × Nat))
    (lo hi : Nat) (h : RTiles text ts os lo hi) : lo ≤ hi := by
  induction h with
  | nil lo => exact le_refl lo
  | cons t ts b e os lo ht hbe htail ih => omega

theorem RTiles_extend (text : List Char) (ts : List (List Char)) (os : List (Nat × Nat))
    (lo b e : Nat) (h : RTiles text ts os lo b) (hbe : b < e) :
    RTiles text (pySlice text b e :: ts) ((b, e) :: os) lo e :=
  RTiles.cons _ _ _ _ _ _ rfl hbe h

theorem RTiles_cons_inv (text : List Char) (t1 : List Char) (ts : List (List Char))
    (b1 e1 : Nat) (os : List (Nat × Nat)) (lo hi : Nat)
    (h : RTiles text (t1 :: ts) ((b1, e1) :: os) lo hi) :
    e1 = hi ∧ b1 < hi ∧ t1 = pySlice text b1 hi ∧ RTiles text ts os lo b1 := by
  cases h with
  | cons _ _ _ _ _ _ ht hbe htail => exact ⟨rfl, hbe, ht, htail⟩

theorem RTiles_merge1 (text : List Char) (ts : List (List Char)) (os : List (Nat × Nat))
    (t1 : List Char) (b1 lo b e : Nat)
    (h : RTiles text (t1 :: ts) ((b1, b) :: os) lo b) (hbe : b < e) :
    RTiles text ((t1 ++ pySlice text b e) :: ts) ((b1, e) :: os) lo e := by
  obtain ⟨_, hb1, ht1, htail⟩ := RTiles_cons_inv text t1 ts b1 b os lo b h
  refine RTiles.cons _ _ _ _ _ _ ?_ (by omega) htail
  rw [ht1]
  exact pySlice_append text b1 b e (by omega) (by omega)

theorem RTiles_merge2 (text : List Char) (ts : List (List Char)) (os : List (Nat × Nat))
    (t1 t2 : List Char) (b1 b2 lo b e : Nat)
    (h : RTiles text (t1 :: t2 :: ts) ((b1, b) :: (b2, b1) :: os) lo b) (hbe : b < e) :
    RTiles text ((t2 ++ t1 ++ pySlice text b e) :: ts) ((b2, e) :: os) lo e := by
  obtain ⟨_, hb1, ht1, htail⟩ := RTiles_cons_inv text t1 (t2 :: ts) b1 b _ lo b h
  obtain ⟨_, hb2, ht2, htail2⟩ := RTiles_cons_inv text t2 ts b2 b1 os lo b1 htail
  refine RTiles.cons _ _ _ _ _ _ ?_ (by omega) htail2
  rw [ht1, ht2]
  rw [List.append_assoc]
  rw [pySlice_append text b1 b e (by omega) (by omega)]
  exact pySlice_append text b2 b1 e (by omega) (by omega)

theorem RTiles_nodot (text : List Char) (ts : List (List Char)) (os : List (Nat × Nat))
    (t1 t2 : List Char) (b1 b2 lo b : Nat)
    (h : RTiles text (t1 :: t2 :: ts) ((b1, b) :: (b2, b1) :: os) lo b) :
    RTiles text ((t2 ++ t1) :: ts) ((b2, b) :: os) lo b := by
  obtain ⟨_, hb1, ht1, htail⟩ := RTiles_cons_inv text t1 (t2 :: ts) b1 b _ lo b h
  obtain ⟨_, hb2, ht2, htail2⟩ := RTiles_cons_inv text t2 ts b2 b1 os lo b1 htail
  refine RTiles.cons _ _ _ _ _ _ ?_ (by omega) htail2
  rw [ht1, ht2]
  exact pySlice_append text b2 b1 b (by omega) (by omega)

theorem concat_token_tiles (res : TokRes) (text : List Char) (st : TokSt) (token : List Char)
    (b e lo : Nat) (htok : token = pySlice text b e) (hbe : b < e)
    (ht : RTiles text st.1 st.2 lo b) :
    ((concat_token res st token b e).1 = true →
      RTiles text (concat_token res st token b e).2.1 (concat_token res st token b e).2.2 lo e) ∧
    ((concat_token res st token b e).1 = false →
      RTiles text (concat_token res st token b e).2.1 (concat_token res st token b e).2.2 lo b) := by
  obtain ⟨ts, os⟩ := st
  cases ts with
  | nil =>
    cases os with
    | nil => exact ⟨fun hf => by simp [concat_token] at hf, fun _ => ht⟩
    | cons o1 os2 => exact ⟨fun hf => by simp [concat_token] at hf, fun _ => ht⟩
  | cons t1 ts2 =>
    cases os with
    | nil => exact ⟨fun hf => by simp [concat_token] at hf, fun _ => ht⟩
    | cons o1 os2 =>
      obtain ⟨b1, e1⟩ := o1
      simp only at ht
      cases ht with
      | cons _ _ _ _ _ _ ht1 hb1 htail =>
        by_cases h1 : (apostrophe_front res (lowerStr t1) (lowerStr token) ||
            abbreviation res (lowerStr t1) (lowerStr token)) = true
        · constructor
          · intro _
            simp only [concat_token, h1, if_true]
            rw [htok]
            exact RTiles_merge1 text ts2 os2 t1 b1 lo b e
              (RTiles.cons _ _ _ _ _ _ ht1 hb1 htail) hbe
          · intro hf
            simp only [concat_token, h1, if_true] at hf
            exact Bool.noConfusion hf
        · rw [Bool.not_eq_true] at h1
          cases ts2 with
          | nil =>
            refine ⟨fun hf => ?_, fun _ => ?_⟩
            · simp only [concat_token, h1, Bool.false_eq_true, if_false] at hf
            · simp only [concat_token, h1, Bool.false_eq_true, if_false]
              exact RTiles.cons _ _ _ _ _ _ ht1 hb1 htail
          | cons t2 ts3 =>
            cases os2 with
            | nil => cases htail
            | cons o2 os3 =>
              obtain ⟨b2, e2⟩ := o2
              cases htail with
              | cons _ _ _ _ _ _ ht2 hb2 htail2 =>
                by_cases h2 : (acronym t2 (lowerStr t1) token ||
                    hyphenated res (lowerStr t2) (lowerStr t1) (lowerStr token)) = true
                · constructor
                  · intro _
                    simp only [concat_token, h1, Bool.false_eq_true, if_false, h2, if_true]
                    rw [htok]
                    exact RTiles_merge2 text ts3 os3 t1 t2 b1 b2 lo b e
                      (RTiles.cons _ _ _ _ _ _ ht1 hb1
                        (RTiles.cons _ _ _ _ _ _ ht2 hb2 htail2)) hbe
                  · intro hf
                    simp only [concat_token, h1, Bool.false_eq_true, if_false, h2, if_true] at hf
                    exact Bool.noConfusion hf
                · rw [Bool.not_eq_true] at h2
                  by_cases h3 : (lowerStr t2 = ['n', 'o'] && lowerStr t1 = ['.'] &&
                      ((lowerStr token).headD ' ').isDigit) = true
                  · constructor
                    · intro hf
                      simp only [concat_token, h1, Bool.false_eq_true, if_false, h2, h3,
                        if_true] at hf
                    · intro _
                      simp only [concat_token, h1, Bool.false_eq_true, if_false, h2, h3, if_true]
                      exact RTiles_nodot text ts3 os3 t1 t2 b1 b2 lo b
                        (RTiles.cons _ _ _ _ _ _ ht1 hb1
                          (RTiles.cons _ _ _ _ _ _ ht2 hb2 htail2))
                  · rw [Bool.not_eq_true] at h3
                    constructor
                    · intro hf
                      simp only [concat_token, h1, Bool.false_eq_true, if_false, h2, h3] at hf
                    · intro _
                      simp only [concat_token, h1, Bool.false_eq_true, if_false, h2, h3]
                      exact RTiles.cons _ _ _ _ _ _ ht1 hb1
                        (RTiles.cons _ _ _ _ _ _ ht2 hb2 htail2)

theorem chain_head_le_getLast :
    ∀ (l : List Nat) (a L : Nat), List.Chain' (fun x y => x < y) (a :: l) →
      (a :: l).getLast? = some L → a ≤ L := by
  intro l
  induction l with
  | nil =>
    intro a L _ hlast
    simp [List.getLast?] at hlast
    omega
  | cons j rest ih =>
    intro a L hchain hlast
    rw [List.getLast?_cons_cons] at hlast
    have h1 := List.chain'_cons.mp hchain
    have h2 := ih j L h1.2 hlast
    omega

theorem concat_pieces_tiles (text token : List Char) (b e lo : Nat)
    (htok : token = pySlice text b e) (hbe : b < e) (he : e ≤ text.length)
    (hlen : token.length = e - b) :
    ∀ v i st, RTiles text st.1 st.2 lo (b + i) →
      List.Chain' (fun x y => x < y) (i :: v) → v.getLast? = some token.length →
      RTiles text (concat_pieces token b st i v).1 (concat_pieces token b st i v).2 lo e := by
  intro v
  induction v with
  | nil =>
    intro i st _ _ hlast
    simp [List.getLast?] at hlast
  | cons j rest ih =>
    intro i st ht hchain hlast
    have hij : i < j := (List.chain'_cons.mp hchain).1
    have hchain2 := (List.chain'_cons.mp hchain).2
    have hjle : j ≤ token.length := chain_head_le_getLast rest j token.length hchain2 hlast
    have hpiece : pySlice token i j = pySlice text (b + i) (b + j) := by
      rw [htok]
      exact pySlice_sub text b e i j (by omega) (by omega)
    rw [concat_pieces]
    cases rest with
    | nil =>
      simp [List.getLast?] at hlast
      rw [concat_pieces]
      have hje : b + j = e := by omega
      have hext := RTiles_extend text st.1 st.2 lo (b + i) (b + j) ht (by omega)
      rw [hpiece]
      show RTiles text (pySlice text (b + i) (b + j) :: st.1) ((b + i, b + j) :: st.2) lo e
      rw [← hje]
      exact hext
    | cons k rest2 =>
      apply ih j (add_token_aux st (pySlice token i j) (b + i) (b + j))
      · show RTiles text (pySlice token i j :: st.1) ((b + i, b + j) :: st.2) lo (b + j)
        rw [hpiece]
        exact RTiles_extend text st.1 st.2 lo (b + i) (b + j) ht (by omega)
      · exact hchain2
      · rw [← hlast]
        exact List.getLast?_cons_cons.symm


theorem split_token_tiles (res : TokRes) (text : List Char) (st : TokSt) (token : List Char)
    (b e lo : Nat) (hW : WFConcat res) (htok : token = pySlice text b e) (hbe : b < e)
    (he : e ≤ text.length) (ht : RTiles text st.1 st.2 lo b) :
    (split_token res st token b e).1 = true →
      RTiles text (split_token res st token b e).2.1 (split_token res st token b e).2.2 lo e := by
  intro hflag
  have hlen : token.length = e - b := by
    rw [htok]
    exact pySlice_length text b e (by omega) he
  unfold split_token at hflag ⊢
  split at hflag
  · rename_i s2 heq
    have hb2 := RE_UNIT_start2_bounds token token.length 0 s2 heq
    have htake : token.take s2 = pySlice text b (b + s2) := by
      conv_lhs => rw [htok]
      exact pySlice_take text b e s2 (by omega)
    have hdrop : token.drop s2 = pySlice text (b + s2) e := by
      conv_lhs => rw [htok]
      exact pySlice_drop text b e s2
    show RTiles text (token.drop s2 :: token.take s2 :: st.1)
      ((b + s2, e) :: (b, b + s2) :: st.2) lo e
    rw [htake, hdrop]
    exact RTiles_extend text _ _ lo (b + s2) e
      (RTiles_extend text st.1 st.2 lo b (b + s2) ht (by omega)) (by omega)
  · split at hflag
    · rename_i j rest heq2
      obtain ⟨kv, hf, hkv⟩ := Option.map_eq_some'.mp heq2
      have hmem := List.mem_of_find?_eq_some hf
      have hkey := List.find?_some hf
      simp only [decide_eq_true_eq] at hkey
      have hwf := hW kv hmem
      have hklen : kv.1.length = token.length := by
        rw [hkey]
        simp [lowerStr]
      show RTiles text (concat_pieces token b st 0 (j :: rest)).1
        (concat_pieces token b st 0 (j :: rest)).2 lo e
      apply concat_pieces_tiles text token b e lo htok hbe he hlen (j :: rest) 0 st
      · show RTiles text st.1 st.2 lo (b + 0)
        simpa using ht
      · rw [← hkv]
        simpa using hwf.1
      · rw [← hkv, hwf.2.2, hklen]
    · split at hflag
      · rename_i p q heq3
        have hbnd := RE_FINAL_MARK_groups_bounds token p q heq3
        have htake : token.take p = pySlice text b (b + p) := by
          conv_lhs => rw [htok]
          exact pySlice_take text b e p (by omega)
        have hmid : pySlice token p q = pySlice text (b + p) (b + q) := by
          rw [htok]
          exact pySlice_sub text b e p q (by omega) (by omega)
        have hdropq : token.drop q = pySlice text (b + q) e := by
          conv_lhs => rw [htok]
          exact pySlice_drop text b e q
        have hfin : b + token.length = e := by omega
        show RTiles text
          (token.drop q :: pySlice token p q :: token.take p :: st.1)
          ((b + q, b + token.length) :: (b + p, b + q) :: (b, b + p) :: st.2) lo e
        rw [htake, hmid, hdropq, hfin]
        exact RTiles_extend text _ _ lo (b + q) e
          (RTiles_extend text _ _ lo (b + p) (b + q)
            (RTiles_extend text st.1 st.2 lo b (b + p) ht (by omega)) (by omega)) (by omega)
      · exact Bool.noConfusion hflag

theorem add_token_tiles (res : TokRes) (text : List Char) (st : TokSt) (token : List Char)
    (b e lo : Nat) (hW : WFConcat res) (htok : token = pySlice text b e) (hbe : b < e)
    (he : e ≤ text.length) (ht : RTiles text st.1 st.2 lo b) :
    RTiles text (add_token res st token b e).1 (add_token res st token b e).2 lo e := by
  unfold add_token
  dsimp only
  have hc := concat_token_tiles res text st token b e lo htok hbe ht
  by_cases h1 : (concat_token res st token b e).1 = true
  · rw [if_pos h1]
    exact hc.1 h1
  · rw [Bool.not_eq_true] at h1
    rw [h1]
    simp only [Bool.false_eq_true, if_false]
    have ht1 := hc.2 h1
    by_cases h2 : (split_token res (concat_token res st token b e).2 token b e).1 = true
    · rw [if_pos h2]
      exact split_token_tiles res text (concat_token res st token b e).2 token b e lo hW htok
        hbe he ht1 h2
    · rw [Bool.not_eq_true] at h2
      rw [h2]
      simp only [Bool.false_eq_true, if_false]
      show RTiles text (token :: (concat_token res st token b e).2.1)
        ((b, e) :: (concat_token res st token b e).2.2) lo e
      rw [htok] at ht1 ⊢
      exact RTiles_extend text _ _ lo b e ht1 hbe

theorem index_last_sequence_bounds (token : List Char) (c : Char) :
    ∀ fuel j0, j0 ≤ token.length →
      j0 ≤ index_last_sequence token c fuel j0 ∧
        index_last_sequence token c fuel j0 ≤ token.length := by
  intro fuel
  induction fuel with
  | zero =>
    intro j0 hle
    rw [index_last_sequence]
    omega
  | succ n ih =>
    intro j0 hle
    rw [index_last_sequence]
    by_cases hlt : j0 < token.length
    · rw [dif_pos hlt]
      by_cases hcond : (if is_final_mark c then !is_final_mark (token.get ⟨j0, hlt⟩)
          else token.get ⟨j0, hlt⟩ ≠ c : Bool) = true
      · rw [if_pos hcond]
        omega
      · rw [if_neg hcond]
        have := ih (j0 + 1) (by omega)
        omega
    · rw [dif_neg hlt]
      omega

theorem do_split_tiles (recur : Recur) (res : TokRes) (text : List Char) (st : TokSt)
    (b e lo : Nat) (token : List Char) (i j : Nat) (hW : WFConcat res)
    (htok : token = pySlice text b e) (hbe : b < e) (he : e ≤ text.length)
    (hij : i < j) (hj : j ≤ e - b)
    (hrec : ∀ st2 b2 e2 lo2, RTiles text st2.1 st2.2 lo2 b2 → b2 ≤ e2 → e2 ≤ text.length →
        e2 - b2 < e - b → RTiles text ((recur st2 b2 e2).2).1 ((recur st2 b2 e2).2).2 lo2 e2)
    (ht : RTiles text st.1 st.2 lo b) :
    RTiles text (do_split recur res st b e token i j).1
      (do_split recur res st b e token i j).2 lo e := by
  unfold do_split
  dsimp only
  have h1 : RTiles text ((recur st b (b + i)).2).1 ((recur st b (b + i)).2).2 lo (b + i) :=
    hrec st b (b + i) lo ht (by omega) (by omega) (by omega)
  have hmid : pySlice token i j = pySlice text (b + i) (b + j) := by
    rw [htok]
    exact pySlice_sub text b e i j (by omega) (by omega)
  have h2 : RTiles text
      (add_token res ((recur st b (b + i)).2) (pySlice token i j) (b + i) (b + j)).1
      (add_token res ((recur st b (b + i)).2) (pySlice token i j) (b + i) (b + j)).2
      lo (b + j) :=
    add_token_tiles res text _ _ (b + i) (b + j) lo hW hmid (by omega) (by omega) h1
  exact hrec _ (b + j) e lo h2 (by omega) he (by omega)

theorem rgx_group_tiles (recur : Recur) (res : TokRes) (text : List Char) (st : TokSt)
    (b e lo : Nat) (token : List Char) (search : List Char → Option (Nat × Nat))
    (hW : WFConcat res) (htok : token = pySlice text b e) (hbe : b < e) (he : e ≤ text.length)
    (hsb : ∀ i l, search token = some (i, l) → i < l ∧ l ≤ token.length)
    (hrec : ∀ st2 b2 e2 lo2, RTiles text st2.1 st2.2 lo2 b2 → b2 ≤ e2 → e2 ≤ text.length →
        e2 - b2 < e - b → RTiles text ((recur st2 b2 e2).2).1 ((recur st2 b2 e2).2).2 lo2 e2)
    (ht : RTiles text st.1 st.2 lo b) :
    ∀ s, rgx_group recur res st b e token search = some s → RTiles text s.1 s.2 lo e := by
  intro s h
  have hlen : token.length = e - b := by
    rw [htok]
    exact pySlice_length text b e (by omega) he
  unfold rgx_group at h
  cases hs : search token with
  | none => rw [hs] at h; cases h
  | some il =>
    obtain ⟨i, l⟩ := il
    rw [hs] at h
    injection h with h
    subst h
    have hb2 := hsb i l hs
    exact do_split_tiles recur res text st b e lo token i l hW htok hbe he hb2.1
      (by omega) hrec ht

theorem rgx_hyperlink_tiles (recur : Recur) (res : TokRes) (text : List Char) (st : TokSt)
    (b e lo : Nat) (token : List Char)
    (hW : WFConcat res) (htok : token = pySlice text b e) (hbe : b < e) (he : e ≤ text.length)
    (hrec : ∀ st2 b2 e2 lo2, RTiles text st2.1 st2.2 lo2 b2 → b2 ≤ e2 → e2 ≤ text.length →
        e2 - b2 < e - b → RTiles text ((recur st2 b2 e2).2).1 ((recur st2 b2 e2).2).2 lo2 e2)
    (ht : RTiles text st.1 st.2 lo b) :
    ∀ s, rgx_hyperlink recur res st b e token = some s → RTiles text s.1 s.2 lo e := by
  intro s h
  have hlen : token.length = e - b := by
    rw [htok]
    exact pySlice_length text b e (by omega) he
  unfold rgx_hyperlink at h
  cases hs : protoSearch token with
  | none => rw [hs] at h; cases h
  | some il =>
    obtain ⟨i, l⟩ := il
    rw [hs] at h
    dsimp only at h
    have hb2 := protoSearch_bounds token i l hs
    by_cases hi : 0 < i
    · rw [if_pos hi] at h
      injection h with h
      subst h
      have h1 : RTiles text ((recur st b (b + i)).2).1 ((recur st b (b + i)).2).2 lo (b + i) :=
        hrec st b (b + i) lo ht (by omega) (by omega) (by omega)
      have hdrop : token.drop i = pySlice text (b + i) e := by
        conv_lhs => rw [htok]
        exact pySlice_drop text b e i
      exact add_token_tiles res text _ _ (b + i) e lo hW hdrop (by omega) he h1
    · rw [if_neg hi] at h
      injection h with h
      subst h
      exact add_token_tiles res text st token b e lo hW htok hbe he ht

theorem tokenize_regex_tiles (recur : Recur) (res : TokRes) (text : List Char) (st : TokSt)
    (b e lo : Nat) (token : List Char)
    (hW : WFConcat res) (htok : token = pySlice text b e) (hbe : b < e) (he : e ≤ text.length)
    (hrec : ∀ st2 b2 e2 lo2, RTiles text st2.1 st2.2 lo2 b2 → b2 ≤ e2 → e2 ≤ text.length →
        e2 - b2 < e - b → RTiles text ((recur st2 b2 e2).2).1 ((recur st2 b2 e2).2).2 lo2 e2)
    (ht : RTiles text st.1 st.2 lo b) :
    (tokenize_regex recur res st b e token).1 = true →
      RTiles text (tokenize_regex recur res st b e token).2.1
        (tokenize_regex recur res st b e token).2.2 lo e := by
  intro hflag
  unfold tokenize_regex at hflag ⊢
  split at hflag
  · rename_i s heq
    exact rgx_group_tiles recur res text st b e lo token htmlSearch hW htok hbe he
      (fun i l hs => htmlSearch_bounds token i l hs) hrec ht s heq
  · split at hflag
    · rename_i s heq
      exact rgx_group_tiles recur res text st b e lo token emailSearch hW htok hbe he
        (fun i l hs => emailSearch_bounds token i l hs) hrec ht s heq
    · split at hflag
      · rename_i s heq
        exact rgx_hyperlink_tiles recur res text st b e lo token hW htok hbe he hrec ht s heq
      · split at hflag
        · rename_i s heq
          exact rgx_group_tiles recur res text st b e lo token emoSearch hW htok hbe he
            (fun i l hs => emoSearch_bounds token i l hs) hrec ht s heq
        · split at hflag
          · rename_i s heq
            exact rgx_group_tiles recur res text st b e lo token listSearch hW htok hbe he
              (fun i l hs => listSearch_bounds token i l hs) hrec ht s heq
          · split at hflag
            · rename_i s heq
              exact rgx_group_tiles recur res text st b e lo token aposSearch hW htok hbe he
                (fun i l hs => aposSearch_bounds token i l hs) hrec ht s heq
            · exact Bool.noConfusion hflag

theorem sym_loop_tiles (recur : Recur) (res : TokRes) (text : List Char) (st : TokSt)
    (b e lo : Nat) (token : List Char)
    (hW : WFConcat res) (htok : token = pySlice text b e) (hbe : b < e) (he : e ≤ text.length)
    (hrec : ∀ st2 b2 e2 lo2, RTiles text st2.1 st2.2 lo2 b2 → b2 ≤ e2 → e2 ≤ text.length →
        e2 - b2 < e - b → RTiles text ((recur st2 b2 e2).2).1 ((recur st2 b2 e2).2).2 lo2 e2)
    (ht : RTiles text st.1 st.2 lo b) :
    ∀ fuel i0,
      (sym_loop recur res st b e token fuel i0).1 = true →
      RTiles text (sym_loop recur res st b e token fuel i0).2.1
        (sym_loop recur res st b e token fuel i0).2.2 lo e := by
  have hlen : token.length = e - b := by
    rw [htok]
    exact pySlice_length text b e (by omega) he
  intro fuel
  induction fuel with
  | zero =>
    intro i0 hflag
    rw [sym_loop] at hflag
    exact Bool.noConfusion hflag
  | succ n ih =>
    intro i0 hflag
    rw [sym_loop] at hflag ⊢
    by_cases hlt : i0 < token.length
    · rw [dif_pos hlt] at hflag ⊢
      have hils := index_last_sequence_bounds token (token.get ⟨i0, hlt⟩)
        token.length (i0 + 1) (by omega)
      by_cases hskip : skip token i0 (token.get ⟨i0, hlt⟩) = true
      · rw [if_pos hskip] at hflag ⊢
        exact ih (i0 + 1) hflag
      · rw [if_neg hskip] at hflag ⊢
        by_cases hsep : separator_0 (token.get ⟨i0, hlt⟩) = true
        · rw [if_pos hsep]
          exact do_split_tiles recur res text st b e lo token i0 _ hW htok hbe he
            (by omega) (by omega) hrec ht
        · rw [if_neg hsep] at hflag ⊢
          by_cases hedge : (edge_symbol_0 (token.get ⟨i0, hlt⟩) &&
              edge_symbol_1 token i0 (index_last_sequence token (token.get ⟨i0, hlt⟩) token.length (i0 + 1))) = true
          · rw [if_pos hedge]
            exact do_split_tiles recur res text st b e lo token i0 _ hW htok hbe he
              (by omega) (by omega) hrec ht
          · rw [if_neg hedge] at hflag ⊢
            by_cases hcur : (currency_like_0 (token.get ⟨i0, hlt⟩) &&
                currency_like_1 token i0 (index_last_sequence token (token.get ⟨i0, hlt⟩) token.length (i0 + 1))) = true
            · rw [if_pos hcur]
              exact do_split_tiles recur res text st b e lo token i0 _ hW htok hbe he
                (by omega) (by omega) hrec ht
            · rw [if_neg hcur] at hflag ⊢
              exact ih (i0 + 1) hflag
    · rw [dif_neg hlt] at hflag
      exact Bool.noConfusion hflag

theorem tokenize_aux_step_tiles (recur : Recur) (res : TokRes) (text : List Char) (st : TokSt)
    (b e lo : Nat) (hW : WFConcat res) (hb : b ≤ e) (he : e ≤ text.length)
    (hrec : ∀ st2 b2 e2 lo2, RTiles text st2.1 st2.2 lo2 b2 → b2 ≤ e2 → e2 ≤ text.length →
        e2 - b2 < e - b → RTiles text ((recur st2 b2 e2).2).1 ((recur st2 b2 e2).2).2 lo2 e2)
    (ht : RTiles text st.1 st.2 lo b) :
    RTiles text (tokenize_aux_step recur res text st b e).2.1
      (tokenize_aux_step recur res text st b e).2.2 lo e := by
  unfold tokenize_aux_step
  dsimp only
  by_cases hguard : (e ≤ b || text.length < e) = true
  · rw [if_pos hguard]
    simp only [Bool.or_eq_true, decide_eq_true_eq] at hguard
    have hbe : b = e := by omega
    rw [← hbe]
    exact ht
  · rw [if_neg hguard]
    simp only [Bool.or_eq_true, decide_eq_true_eq] at hguard
    push_neg at hguard
    have hbe : b < e := by omega
    by_cases htriv : tokenize_trivial (pySlice text b e) b e = true
    · rw [if_pos htriv]
      exact add_token_tiles res text st (pySlice text b e) b e lo hW rfl hbe he ht
    · rw [if_neg htriv]
      by_cases hr2 : (tokenize_regex recur res st b e (pySlice text b e)).1 = true
      · rw [if_pos hr2]
        exact tokenize_regex_tiles recur res text st b e lo (pySlice text b e) hW rfl hbe he
          hrec ht hr2
      · rw [Bool.not_eq_true] at hr2
        rw [hr2]
        simp only [Bool.false_eq_true, if_false]
        by_cases hr3 : (tokenize_symbol recur res st b e (pySlice text b e)).1 = true
        · rw [if_pos hr3]
          unfold tokenize_symbol at hr3 ⊢
          exact sym_loop_tiles recur res text st b e lo (pySlice text b e) hW rfl hbe he
            hrec ht (pySlice text b e).length 0 hr3
        · rw [Bool.not_eq_true] at hr3
          rw [hr3]
          simp only [Bool.false_eq_true, if_false]
          exact add_token_tiles res text st (pySlice text b e) b e lo hW rfl hbe he ht

theorem tokenize_aux_tiles (res : TokRes) (text : List Char) (hW : WFConcat res) :
    ∀ f st b e lo, RTiles text st.1 st.2 lo b → b ≤ e → e ≤ text.length → e - b ≤ f →
      RTiles text ((tokenize_aux res text f st b e).2).1
        ((tokenize_aux res text f st b e).2).2 lo e := by
  intro f
  induction f with
  | zero =>
    intro st b e lo ht hb he hf
    have hbe : b = e := by omega
    rw [tokenize_aux]
    rw [← hbe]
    exact ht
  | succ f ih =>
    intro st b e lo ht hb he hf
    rw [tokenize_aux]
    exact tokenize_aux_step_tiles _ res text st b e lo hW hb he
      (fun st2 b2 e2 lo2 h2 hb2 he2 hlt => ih st2 b2 e2 lo2 h2 hb2 he2 (by omega)) ht

/-! ## The tokens/offsets lists always have equal length -/

theorem concat_token_len (res : TokRes) (st : TokSt) (token : List Char) (b e : Nat)
    (h : st.1.length = st.2.length) :
    (concat_token res st token b e).2.1.length = (concat_token res st token b e).2.2.length := by
  obtain ⟨ts, os⟩ := st
  cases ts with
  | nil => cases os <;> simp [concat_token] at h ⊢ <;> omega
  | cons t1 ts2 =>
    cases os with
    | nil => simp [concat_token] at h ⊢
    | cons o1 os2 =>
      obtain ⟨b1, e1⟩ := o1
      simp only at h
      by_cases h1 : (apostrophe_front res (lowerStr t1) (lowerStr token) ||
          abbreviation res (lowerStr t1) (lowerStr token)) = true
      · simp [concat_token, h1] at h ⊢
        omega
      · rw [Bool.not_eq_true] at h1
        cases ts2 with
        | nil =>
          cases os2 with
          | nil => simp [concat_token, h1] at h ⊢
          | cons o2 os3 => simp [concat_token, h1] at h ⊢
        | cons t2 ts3 =>
          cases os2 with
          | nil => simp [concat_token, h1] at h ⊢
          | cons o2 os3 =>
            obtain ⟨b2, e2⟩ := o2
            by_cases h2 : (acronym t2 (lowerStr t1) token ||
                hyphenated res (lowerStr t2) (lowerStr t1) (lowerStr token)) = true
            · simp [concat_token, h1, h2] at h ⊢
              omega
            · rw [Bool.not_eq_true] at h2
              simp [concat_token, h1, h2] at h ⊢
              split <;> simp <;> omega

theorem concat_pieces_len (token : List Char) (b : Nat) :
    ∀ v st i, st.1.length = st.2.length →
      (concat_pieces token b st i v).1.length = (concat_pieces token b st i v).2.length := by
  intro v
  induction v with
  | nil => intro st i h; rw [concat_pieces]; exact h
  | cons j rest ih =>
    intro st i h
    rw [concat_pieces]
    apply ih
    simp [add_token_aux]
    omega

theorem split_token_len (res : TokRes) (st : TokSt) (token : List Char) (b e : Nat)
    (h : st.1.length = st.2.length) :
    (split_token res st token b e).2.1.length = (split_token res st token b e).2.2.length := by
  unfold split_token
  split
  · simp [add_token_aux]
    omega
  · split
    · rename_i j rest heq2
      exact concat_pieces_len token b (j :: rest) st 0 h
    · split
      · simp [add_token_aux]
        omega
      · exact h

theorem add_token_len (res : TokRes) (st : TokSt) (token : List Char) (b e : Nat)
    (h : st.1.length = st.2.length) :
    (add_token res st token b e).1.length = (add_token res st token b e).2.length := by
  unfold add_token
  dsimp only
  have hc := concat_token_len res st token b e h
  by_cases h1 : (concat_token res st token b e).1 = true
  · rw [if_pos h1]
    exact hc
  · rw [Bool.not_eq_true] at h1
    rw [h1]
    simp only [Bool.false_eq_true, if_false]
    have hs := split_token_len res (concat_token res st token b e).2 token b e hc
    by_cases h2 : (split_token res (concat_token res st token b e).2 token b e).1 = true
    · rw [if_pos h2]
      exact hs
    · rw [Bool.not_eq_true] at h2
      rw [h2]
      simp only [Bool.false_eq_true, if_false, add_token_aux]
      simp
      omega

theorem do_split_len (recur : Recur) (res : TokRes) (st : TokSt) (b e : Nat)
    (token : List Char) (i j : Nat)
    (hrec : ∀ st2 b2 e2, st2.1.length = st2.2.length →
      ((recur st2 b2 e2).2).1.length = ((recur st2 b2 e2).2).2.length)
    (h : st.1.length = st.2.length) :
    (do_split recur res st b e token i j).1.length =
      (do_split recur res st b e token i j).2.length := by
  unfold do_split
  dsimp only
  exact hrec _ _ _ (add_token_len res _ _ _ _ (hrec _ _ _ h))

theorem tokenize_regex_len (recur : Recur) (res : TokRes) (st : TokSt) (b e : Nat)
    (token : List Char)
    (hrec : ∀ st2 b2 e2, st2.1.length = st2.2.length →
      ((recur st2 b2 e2).2).1.length = ((recur st2 b2 e2).2).2.length)
    (h : st.1.length = st.2.length) :
    (tokenize_regex recur res st b e token).2.1.length =
      (tokenize_regex recur res st b e token).2.2.length := by
  have hgrp : ∀ search s, rgx_group recur res st b e token search = some s →
      s.1.length = s.2.length := by
    intro search s hs
    unfold rgx_group at hs
    cases hsr : search token with
    | none => rw [hsr] at hs; cases hs
    | some il =>
      obtain ⟨i, l⟩ := il
      rw [hsr] at hs
      injection hs with hs
      subst hs
      exact do_split_len recur res st b e token i l hrec h
  have hhyp : ∀ s, rgx_hyperlink recur res st b e token = some s →
      s.1.length = s.2.length := by
    intro s hs
    unfold rgx_hyperlink at hs
    cases hsr : protoSearch token with
    | none => rw [hsr] at hs; cases hs
    | some il =>
      obtain ⟨i, l⟩ := il
      rw [hsr] at hs
      dsimp only at hs
      by_cases hi : 0 < i
      · rw [if_pos hi] at hs
        injection hs with hs
        subst hs
        exact add_token_len res _ _ _ _ (hrec _ _ _ h)
      · rw [if_neg hi] at hs
        injection hs with hs
        subst hs
        exact add_token_len res _ _ _ _ h
  unfold tokenize_regex
  split
  · rename_i s heq; exact hgrp htmlSearch s heq
  · split
    · rename_i s heq; exact hgrp emailSearch s heq
    · split
      · rename_i s heq; exact hhyp s heq
      · split
        · rename_i s heq; exact hgrp emoSearch s heq
        · split
          · rename_i s heq; exact hgrp listSearch s heq
          · split
            · rename_i s heq; exact hgrp aposSearch s heq
            · exact h

theorem sym_loop_len (recur : Recur) (res : TokRes) (st : TokSt) (b e : Nat)
    (token : List Char)
    (hrec : ∀ st2 b2 e2, st2.1.length = st2.2.length →
      ((recur st2 b2 e2).2).1.length = ((recur st2 b2 e2).2).2.length)
    (h : st.1.length = st.2.length) :
    ∀ fuel i0,
      (sym_loop recur res st b e token fuel i0).2.1.length =
        (sym_loop recur res st b e token fuel i0).2.2.length := by
  intro fuel
  induction fuel with
  | zero =>
    intro i0
    rw [sym_loop]
    exact h
  | succ n ih =>
    intro i0
    rw [sym_loop]
    by_cases hlt : i0 < token.length
    · rw [dif_pos hlt]
      by_cases hskip : skip token i0 (token.get ⟨i0, hlt⟩) = true
      · rw [if_pos hskip]
        exact ih (i0 + 1)
      · rw [if_neg hskip]
        by_cases hsep : separator_0 (token.get ⟨i0, hlt⟩) = true
        · rw [if_pos hsep]
          exact do_split_len recur res st b e token i0 _ hrec h
        · rw [if_neg hsep]
          by_cases hedge : (edge_symbol_0 (token.get ⟨i0, hlt⟩) &&
              edge_symbol_1 token i0 (index_last_sequence token (token.get ⟨i0, hlt⟩) token.length (i0 + 1))) = true
          · rw [if_pos hedge]
            exact do_split_len recur res st b e token i0 _ hrec h
          · rw [if_neg hedge]
            by_cases hcur : (currency_like_0 (token.get ⟨i0, hlt⟩) &&
                currency_like_1 token i0 (index_last_sequence token (token.get ⟨i0, hlt⟩) token.length (i0 + 1))) = true
            · rw [if_pos hcur]
              exact do_split_len recur res st b e token i0 _ hrec h
            · rw [if_neg hcur]
              exact ih (i0 + 1)
    · rw [dif_neg hlt]
      exact h

theorem tokenize_aux_len (res : TokRes) (text : List Char) :
    ∀ f st b e, st.1.length = st.2.length →
      ((tokenize_aux res text f st b e).2).1.length =
        ((tokenize_aux res text f st b e).2).2.length := by
  intro f
  induction f with
  | zero =>
    intro st b e h
    rw [tokenize_aux]
    exact h
  | succ f ih =>
    intro st b e h
    rw [tokenize_aux]
    have hrec : ∀ st2 b2 e2, st2.1.length = st2.2.length →
        ((tokenize_aux res text f st2 b2 e2).2).1.length =
          ((tokenize_aux res text f st2 b2 e2).2).2.length :=
      fun st2 b2 e2 h2 => ih st2 b2 e2 h2
    unfold tokenize_aux_step
    dsimp only
    by_cases hguard : (e ≤ b || text.length < e) = true
    · rw [if_pos hguard]
      exact h
    · rw [if_neg hguard]
      by_cases htriv : tokenize_trivial (pySlice text b e) b e = true
      · rw [if_pos htriv]
        exact add_token_len res st _ b e h
      · rw [if_neg htriv]
        by_cases hr2 : (tokenize_regex (fun st2 b2 e2 => tokenize_aux res text f st2 b2 e2)
            res st b e (pySlice text b e)).1 = true
        · rw [if_pos hr2]
          exact tokenize_regex_len _ res st b e _ hrec h
        · rw [Bool.not_eq_true] at hr2
          rw [hr2]
          simp only [Bool.false_eq_true, if_false]
          by_cases hr3 : (tokenize_symbol (fun st2 b2 e2 => tokenize_aux res text f st2 b2 e2)
              res st b e (pySlice text b e)).1 = true
          · rw [if_pos hr3]
            unfold tokenize_symbol
            exact sym_loop_len _ res st b e _ hrec h (pySlice text b e).length 0
          · rw [Bool.not_eq_true] at hr3
            rw [hr3]
            simp only [Bool.false_eq_true, if_false]
            exact add_token_len res st _ b e h

theorem tokenize_scan_len (res : TokRes) (text : List Char) (fuel : Nat) :
    ∀ l b st, st.1.length = st.2.length →
      ((tokenize_scan res text fuel l b st).2).1.length =
        ((tokenize_scan res text fuel l b st).2).2.length := by
  intro l
  induction l with
  | nil => intro b st h; rw [tokenize_scan]; exact h
  | cons i rest ih =>
    intro b st h
    rw [tokenize_scan]
    by_cases hsp : pyIsSpace (text.getD i ' ') = true
    · rw [if_pos hsp]
      exact ih (i + 1) _ (tokenize_aux_len res text fuel st b i h)
    · rw [if_neg hsp]
      exact ih b st h

theorem tokenize_len (res : TokRes) (text : List Char) :
    (tokenize res text).1.length = (tokenize res text).2.length := by
  unfold tokenize
  by_cases hguard : (text.isEmpty || text.all pyIsSpace) = true
  · rw [if_pos hguard]
    rfl
  · rw [if_neg hguard]
    dsimp only
    simp only [List.length_reverse]
    apply tokenize_aux_len
    apply tokenize_scan_len
    simp

/-! ## From the tiling invariant to the output properties -/

theorem RTiles_forall2 (text : List Char) (ts : List (List Char)) (os : List (Nat × Nat))
    (lo hi : Nat) (h : RTiles text ts os lo hi) :
    List.Forall₂ (fun t p => pySlice text (p : Nat × Nat).1 p.2 = t) ts os := by
  induction h with
  | nil lo => exact List.Forall₂.nil
  | cons t ts b e os lo ht hbe htail ih => exact List.Forall₂.cons ht.symm ih

theorem RTiles_covers (text : List Char) (ts : List (List Char)) (os : List (Nat × Nat))
    (lo hi : Nat) (h : RTiles text ts os lo hi) :
    ∀ pos, covers os pos ↔ lo ≤ pos ∧ pos < hi := by
  induction h with
  | nil lo =>
    intro pos
    constructor
    · intro ⟨p, hp, _⟩
      simp at hp
    · intro h2
      omega
  | cons t ts b e os lo ht hbe htail ih =>
    intro pos
    have hlo := RTiles_le text ts os lo b htail
    constructor
    · intro ⟨p, hp, hp2⟩
      rcases List.mem_cons.mp hp with h1 | h2
      · subst h1
        simp at hp2
        omega
      · have := (ih pos).mp ⟨p, h2, hp2⟩
        omega
    · intro h2
      by_cases hpos : pos < b
      · obtain ⟨p, hp, hp2⟩ := (ih pos).mpr ⟨h2.1, hpos⟩
        exact ⟨p, List.mem_cons_of_mem _ hp, hp2⟩
      · exact ⟨(b, e), List.mem_cons_self _ _, by simp; omega⟩

theorem RTiles_mem_bounds (text : List Char) (ts : List (List Char)) (os : List (Nat × Nat))
    (lo hi : Nat) (h : RTiles text ts os lo hi) :
    ∀ p ∈ os, lo ≤ p.1 ∧ p.1 < p.2 ∧ p.2 ≤ hi := by
  induction h with
  | nil lo => intro p hp; simp at hp
  | cons t ts b e os lo ht hbe htail ih =>
    intro p hp
    have hlo := RTiles_le text ts os lo b htail
    rcases List.mem_cons.mp hp with h1 | h2
    · subst h1
      simp
      omega
    · have := ih p h2
      omega

theorem RTiles_head_end (text : List Char) (ts : List (List Char)) (os : List (Nat × Nat))
    (lo hi : Nat) (h : RTiles text ts os lo hi) :
    ∀ p ∈ os.head?, (p : Nat × Nat).2 = hi := by
  cases h with
  | nil lo => intro p hp; simp at hp
  | cons t ts b e os lo ht hbe htail =>
    intro p hp
    simp at hp
    rw [← hp]

theorem RTiles_chain (text : List Char) (ts : List (List Char)) (os : List (Nat × Nat))
    (lo hi : Nat) (h : RTiles text ts os lo hi) :
    List.Chain' (fun p q : Nat × Nat => q.2 ≤ p.1) os := by
  induction h with
  | nil lo => exact List.chain'_nil
  | cons t ts b e os lo ht hbe htail ih =>
    rw [List.chain'_cons']
    refine ⟨?_, ih⟩
    intro y hy
    have := RTiles_head_end text ts os lo b htail y hy
    omega

theorem covers_reverse (os : List (Nat × Nat)) (pos : Nat) :
    covers os.reverse pos ↔ covers os pos := by
  unfold covers
  constructor
  · intro ⟨p, hp, hp2⟩
    exact ⟨p, List.mem_reverse.mp hp, hp2⟩
  · intro ⟨p, hp, hp2⟩
    exact ⟨p, List.mem_reverse.mpr hp, hp2⟩

theorem tokenize_scan_nosp (res : TokRes) (text : List Char) (fuel : Nat) :
    ∀ l b st, (∀ i ∈ l, pyIsSpace (text.getD i ' ') = false) →
      tokenize_scan res text fuel l b st = (b, st) := by
  intro l
  induction l with
  | nil => intro b st _; rw [tokenize_scan]
  | cons i rest ih =>
    intro b st hl
    rw [tokenize_scan]
    rw [if_neg (by rw [hl i (List.mem_cons_self _ _)]; simp)]
    exact ih b st (fun j hj => hl j (List.mem_cons_of_mem _ hj))

theorem tokenize_onespan_core (res : TokRes) (text : List Char) (hW : WFConcat res)
    (hos : OneSpan text)
    (hne : (text.isEmpty || text.all pyIsSpace) = false) :
    ∃ s1 s2 : Nat, s1 < s2 ∧ s2 ≤ text.length ∧
      (∀ pos, pos < text.length → (pyIsSpace (text.getD pos ' ') = false ↔ s1 ≤ pos ∧ pos < s2)) ∧
      ∃ stf : TokSt, tokenize res text = (stf.1.reverse, stf.2.reverse) ∧
        RTiles text stf.1 stf.2 s1 s2 := by
  rw [Bool.or_eq_false_iff] at hne
  have hnonempty : text ≠ [] := List.isEmpty_eq_false.mp hne.1
  have hex : ∃ c ∈ text, ¬pyIsSpace c = true := List.all_eq_false.mp hne.2
  have hexr : ∃ c ∈ text.reverse, ¬pyIsSpace c = true := by
    obtain ⟨c, hc, hcs⟩ := hex
    exact ⟨c, List.mem_reverse.mpr hc, hcs⟩
  set b0 := text.findIdx (fun c => !pyIsSpace c) with hb0
  set r := text.reverse.findIdx (fun c => !pyIsSpace c) with hr
  have hb0lt : b0 < text.length := by
    rw [hb0]
    apply List.findIdx_lt_length.mpr
    obtain ⟨c, hc, hcs⟩ := hex
    exact ⟨c, hc, by simpa using hcs⟩
  have hrlt : r < text.length := by
    have : r < text.reverse.length := by
      rw [hr]
      apply List.findIdx_lt_length.mpr
      obtain ⟨c, hc, hcs⟩ := hexr
      exact ⟨c, hc, by simpa using hcs⟩
    simpa using this
  set lst := text.length - r with hlst
  have hb0ns : pyIsSpace (text.getD b0 ' ') = false := by
    rw [List.getD_eq_getElem text ' ' hb0lt]
    have := @List.findIdx_getElem _ (fun c => !pyIsSpace c) text hb0lt
    simpa using this
  have hb0min : ∀ i, i < b0 → pyIsSpace (text.getD i ' ') = true := by
    intro i hi
    have hilt : i < text.length := by omega
    rw [List.getD_eq_getElem text ' ' hilt]
    have := @List.not_of_lt_findIdx _ (fun c => !pyIsSpace c) text i hi
    simpa using this
  have hlstns : pyIsSpace (text.getD (lst - 1) ' ') = false := by
    have hrevlt : r < text.reverse.length := by simpa using hrlt
    have hfe := @List.findIdx_getElem _ (fun c => !pyIsSpace c) text.reverse hrevlt
    rw [List.getElem_reverse] at hfe
    have hgd : pyIsSpace (text.getD (text.length - 1 - r) ' ') = false := by
      rw [List.getD_eq_getElem text ' ' (by omega)]
      simpa using hfe
    have hlucky : text.length - 1 - r = lst - 1 := by omega
    rw [hlucky] at hgd
    exact hgd
  have hlstmax : ∀ i, lst ≤ i → i < text.length → pyIsSpace (text.getD i ' ') = true := by
    intro i hge hlt
    have hidx : text.length - 1 - i < r := by omega
    have hfe := @List.not_of_lt_findIdx _ (fun c => !pyIsSpace c) text.reverse
      (text.length - 1 - i) hidx
    rw [List.getElem_reverse] at hfe
    have hgd : pyIsSpace (text.getD (text.length - 1 - (text.length - 1 - i)) ' ') = true := by
      rw [List.getD_eq_getElem text ' ' (by omega)]
      simpa using hfe
    have hlucky : text.length - 1 - (text.length - 1 - i) = i := by omega
    rw [hlucky] at hgd
    exact hgd
  have hb0lst : b0 < lst := by
    by_contra hc
    push_neg at hc
    have := hb0min (lst - 1) (by omega)
    rw [this] at hlstns
    exact Bool.noConfusion hlstns
  have hchar : ∀ pos, pos < text.length →
      (pyIsSpace (text.getD pos ' ') = false ↔ b0 ≤ pos ∧ pos < lst) := by
    intro pos hpos
    constructor
    · intro hns
      constructor
      · by_contra hc
        push_neg at hc
        rw [hb0min pos hc] at hns
        exact Bool.noConfusion hns
      · by_contra hc
        push_neg at hc
        rw [hlstmax pos hc hpos] at hns
        exact Bool.noConfusion hns
    · intro ⟨h1, h2⟩
      exact hos (lst - 1) (by omega) pos (by omega) b0 h1 hb0ns hlstns
  refine ⟨b0, lst, hb0lst, by omega, hchar, ?_⟩
  have hguard : (text.isEmpty || text.all pyIsSpace) = true → False := by
    intro hg
    rw [hne.1, hne.2] at hg
    exact Bool.noConfusion hg
  have hint : ∀ i ∈ List.range' (b0 + 1) (lst - (b0 + 1)), pyIsSpace (text.getD i ' ') = false := by
    intro i hi
    rw [List.mem_range'] at hi
    obtain ⟨k, hk, hik⟩ := hi
    apply (hchar i (by omega)).mpr
    omega
  refine ⟨(tokenize_aux res text (text.length + 1) ([], []) b0 lst).2, ?_, ?_⟩
  · unfold tokenize
    rw [if_neg (by rw [hne.1, hne.2]; simp)]
    dsimp only
    rw [← hb0, ← hr]
    rw [tokenize_scan_nosp res text (text.length + 1) _ b0 ([], []) hint]
  · exact tokenize_aux_tiles res text hW (text.length + 1)
      ([], []) b0 lst b0 (RTiles.nil b0) (by omega) (by omega) (by omega)

/-! ## Claims C1 and C2 -/

/-- C1 (amended): for every input, `EnglishTokenizer.tokenize` returns parallel
lists of equal length; and when the concatenated-word table is well-formed and
the non-whitespace characters of the text form one contiguous block, every
token equals the text slice of its offsets, including after merges.  (As
originally stated the round-trip clause is false: a `concat_token` merge can
join tokens from different whitespace-delimited spans, widening an offset
range across the whitespace — see the counterexample.) -/
theorem c1_english_tokenize_parallel_roundtrip (res : TokRes) (text : List Char) :
    (tokenize res text).1.length = (tokenize res text).2.length ∧
    (WFConcat res → OneSpan text →
      List.Forall₂ (fun t p => pySlice text (p : Nat × Nat).1 p.2 = t)
        (tokenize res text).1 (tokenize res text).2) := by
  refine ⟨tokenize_len res text, ?_⟩
  intro hW hos
  by_cases hg : (text.isEmpty || text.all pyIsSpace) = true
  · unfold tokenize
    rw [if_pos hg]
    exact List.Forall₂.nil
  · rw [Bool.not_eq_true] at hg
    obtain ⟨s1, s2, _, _, _, stf, heq, htiles⟩ := tokenize_onespan_core res text hW hos hg
    rw [heq]
    dsimp only
    rw [List.forall₂_reverse_iff]
    exact RTiles_forall2 text _ _ s1 s2 htiles

/-- C1 counterexample: on `"a ."` (with empty resources) the abbreviation-period
merge joins the tokens `"a"` and `"."` across the whitespace, producing the
single token `"a."` with offsets `(0, 3)`, but `text[0:3] = "a ."`, so the
round-trip clause of the claim fails. -/
theorem c1_counterexample :
    tokenize res0 "a .".toList = ([['a', '.']], [(0, 3)]) ∧
    pySlice "a .".toList 0 3 ≠ ['a', '.'] := by
  constructor
  · rfl
  · decide

/-- C1 witness at the concrete input `"ab."` with empty resources. -/
theorem c1_witness :
    WFConcat res0 ∧ OneSpan "ab.".toList ∧
    List.Forall₂ (fun t p => pySlice "ab.".toList (p : Nat × Nat).1 p.2 = t)
      (tokenize res0 "ab.".toList).1 (tokenize res0 "ab.".toList).2 :=
  ⟨by decide, by decide,
    (c1_english_tokenize_parallel_roundtrip res0 "ab.".toList).2 (by decide) (by decide)⟩

/-- C2 (amended): when the concatenated-word table is well-formed and the
non-whitespace characters of the text form one contiguous block, the union of
the emitted offset ranges is exactly the set of non-whitespace positions, each
range is nonempty and within the text, and consecutive offsets satisfy
`offsets[i].end ≤ offsets[i+1].begin`.  (As originally stated the claim is
false: a merge across whitespace-delimited spans makes an offset range cover
a whitespace position — see the counterexample.) -/
theorem c2_english_tokenize_partition (res : TokRes) (text : List Char)
    (hW : WFConcat res) (hos : OneSpan text) :
    (∀ pos, pos < text.length →
      (covers (tokenize res text).2 pos ↔ pyIsSpace (text.getD pos ' ') = false)) ∧
    (∀ p ∈ (tokenize res text).2, p.1 < p.2 ∧ p.2 ≤ text.length) ∧
    List.Chain' (fun p q : Nat × Nat => p.2 ≤ q.1) (tokenize res text).2 := by
  by_cases hg : (text.isEmpty || text.all pyIsSpace) = true
  · have hout : tokenize res text = ([], []) := by
      unfold tokenize
      rw [if_pos hg]
    rw [hout]
    refine ⟨?_, ?_, ?_⟩
    · intro pos hpos
      constructor
      · intro ⟨p, hp, _⟩
        simp at hp
      · intro hns
        exfalso
        rw [Bool.or_eq_true] at hg
        rcases hg with h1 | h2
        · rw [List.isEmpty_eq_true] at h1
          rw [h1] at hpos
          simp at hpos
        · have hmem : text.getD pos ' ' ∈ text := by
            rw [List.getD_eq_getElem text ' ' hpos]
            exact List.getElem_mem hpos
          have := List.all_eq_true.mp h2 (text.getD pos ' ') hmem
          rw [this] at hns
          exact Bool.noConfusion hns
    · intro p hp
      simp at hp
    · exact List.chain'_nil
  · rw [Bool.not_eq_true] at hg
    obtain ⟨s1, s2, hs12, hs2le, hchar, stf, heq, htiles⟩ :=
      tokenize_onespan_core res text hW hos hg
    rw [heq]
    dsimp only
    refine ⟨?_, ?_, ?_⟩
    · intro pos hpos
      rw [covers_reverse]
      rw [RTiles_covers text stf.1 stf.2 s1 s2 htiles pos]
      rw [hchar pos hpos]
    · intro p hp
      rw [List.mem_reverse] at hp
      have := RTiles_mem_bounds text stf.1 stf.2 s1 s2 htiles p hp
      omega
    · rw [List.chain'_reverse]
      exact RTiles_chain text stf.1 stf.2 s1 s2 htiles

/-- C2 counterexample: on `"a ."` (with empty resources) the emitted offset
range `(0, 3)` covers position 1, which is a whitespace character, so the
union of the offset ranges is not the set of non-whitespace positions. -/
theorem c2_counterexample :
    (tokenize res0 "a .".toList).2 = [(0, 3)] ∧
    pyIsSpace ("a .".toList.getD 1 ' ') = true ∧
    covers (tokenize res0 "a .".toList).2 1 := by
  refine ⟨by rfl, by decide, ⟨(0, 3), ?_, by omega⟩⟩
  show (0, 3) ∈ (tokenize res0 "a .".toList).2
  have h : (tokenize res0 "a .".toList).2 = [(0, 3)] := by rfl
  rw [h]
  exact List.mem_singleton.mpr rfl

/-- C2 witness at the concrete input `" hi "` with empty resources. -/
theorem c2_witness :
    WFConcat res0 ∧ OneSpan " hi ".toList ∧
    ((∀ pos, pos < " hi ".toList.length →
      (covers (tokenize res0 " hi ".toList).2 pos ↔
        pyIsSpace (" hi ".toList.getD pos ' ') = false)) ∧
    (∀ p ∈ (tokenize res0 " hi ".toList).2, p.1 < p.2 ∧ p.2 ≤ " hi ".toList.length) ∧
    List.Chain' (fun p q : Nat × Nat => p.2 ≤ q.1) (tokenize res0 " hi ".toList).2) :=
  ⟨by decide, by decide,
    c2_english_tokenize_partition res0 " hi ".toList (by decide) (by decide)⟩

/-! ## Claims C3 and C10 -/

/-- C3 (amended): when `concat_token` reports a merge (apostrophe-front,
abbreviation, acronym, or hyphenated), `add_token` returns the merged state
and performs no split check.  (The no-dot-digit undo, by contrast, mutates the
previously emitted tokens but reports no merge — the source discards its
`True` — so split checks still run for that candidate; see the
counterexample.) -/
theorem c3_merge_skips_split_check (res : TokRes) (st : TokSt) (token : List Char)
    (b e : Nat) (h : (concat_token res st token b e).1 = true) :
    add_token res st token b e = (concat_token res st token b e).2 := by
  unfold add_token
  dsimp only
  rw [if_pos h]

/-- C3 counterexample: with previously emitted tokens `"no"`, `"."` and the
candidate `"10kg"`, the no-dot-digit undo fires (splicing `"."` back onto
`"no"`) yet `concat_token` reports `false`, and the unit-suffix split check
then runs on the candidate, splitting it into `"10"` and `"kg"` — so a merge
occurred and a split check still ran, contradicting the claim. -/
theorem c3_counterexample :
    concat_token res0 ([['.'], ['n', 'o']], [(3, 4), (0, 2)]) "10kg".toList 5 9 =
      (false, ([['n', 'o', '.']], [(0, 4)])) ∧
    add_token res0 ([['.'], ['n', 'o']], [(3, 4), (0, 2)]) "10kg".toList 5 9 =
      ([['k', 'g'], ['1', '0'], ['n', 'o', '.']], [(7, 9), (5, 7), (0, 4)]) ∧
    add_token res0 ([['.'], ['n', 'o']], [(3, 4), (0, 2)]) "10kg".toList 5 9 ≠
      ([['1', '0', 'k', 'g'], ['n', 'o', '.']], [(5, 9), (0, 4)]) := by
  refine ⟨by rfl, by rfl, by decide⟩

/-- C3 witness: the abbreviation merge of `"a"` with `"."` goes through
`add_token` unchanged, with no split applied. -/
theorem c3_witness :
    (concat_token res0 ([['a']], [(0, 1)]) ['.'] 1 2).1 = true ∧
    add_token res0 ([['a']], [(0, 1)]) ['.'] 1 2 =
      (concat_token res0 ([['a']], [(0, 1)]) ['.'] 1 2).2 :=
  ⟨by rfl, c3_merge_skips_split_check res0 ([['a']], [(0, 1)]) ['.'] 1 2 (by rfl)⟩

theorem char_eq_iff_toNat (d x : Char) : (d = x) ↔ d.toNat = x.toNat := by
  rw [Char.ext_iff, UInt32.ext_iff]
  exact Iff.rfl

theorem isAlphanum_toNat (d : Char) : d.isAlphanum = true ↔
    (48 ≤ d.toNat ∧ d.toNat ≤ 57) ∨ (65 ≤ d.toNat ∧ d.toNat ≤ 90) ∨
      (97 ≤ d.toNat ∧ d.toNat ≤ 122) := by
  simp only [Char.isAlphanum, Char.isAlpha, Char.isUpper, Char.isLower, Char.isDigit,
    Bool.or_eq_true, Bool.and_eq_true, decide_eq_true_eq]
  constructor
  · intro h
    rcases h with (⟨h1, h2⟩ | ⟨h1, h2⟩) | ⟨h1, h2⟩
    · exact Or.inr (Or.inl ⟨h1, h2⟩)
    · exact Or.inr (Or.inr ⟨h1, h2⟩)
    · exact Or.inl ⟨h1, h2⟩
  · intro h
    rcases h with ⟨h1, h2⟩ | ⟨h1, h2⟩ | ⟨h1, h2⟩
    · exact Or.inr ⟨h1, h2⟩
    · exact Or.inl (Or.inl ⟨h1, h2⟩)
    · exact Or.inl (Or.inr ⟨h1, h2⟩)

theorem toLower_toNat (c : Char) :
    c.toLower.toNat = if 65 ≤ c.toNat ∧ c.toNat ≤ 90 then c.toNat + 32 else c.toNat := by
  unfold Char.toLower
  by_cases hu : c.toNat ≥ 65 ∧ c.toNat ≤ 90
  · rw [if_pos hu, if_pos ⟨hu.1, hu.2⟩]
    unfold Char.ofNat
    rw [dif_pos (Or.inl (by omega))]
    rfl
  · rw [if_neg hu, if_neg hu]

theorem toLower_keeps_alnum (c : Char) (h : c.isAlphanum = true) :
    (c.toLower).isAlphanum = true ∧ is_single_quote (c.toLower) = false := by
  have hch := toLower_toNat c
  have hc := (isAlphanum_toNat c).mp h
  have hrange : (48 ≤ c.toLower.toNat ∧ c.toLower.toNat ≤ 57) ∨
      (97 ≤ c.toLower.toNat ∧ c.toLower.toNat ≤ 122) := by
    rw [hch]
    by_cases hu : 65 ≤ c.toNat ∧ c.toNat ≤ 90
    · rw [if_pos hu]
      omega
    · rw [if_neg hu]
      omega
  constructor
  · rw [isAlphanum_toNat]
    omega
  · unfold is_single_quote
    have h1 : (c.toLower = '\'') = False := by
      rw [char_eq_iff_toNat]
      simp only [eq_iff_iff, iff_false]
      intro hq
      rw [show ('\'' : Char).toNat = 39 from rfl] at hq
      omega
    have h2 : (c.toLower = '‘') = False := by
      rw [char_eq_iff_toNat]
      simp only [eq_iff_iff, iff_false]
      intro hq
      rw [show ('‘' : Char).toNat = 8216 from rfl] at hq
      omega
    have h3 : (c.toLower = '’') = False := by
      rw [char_eq_iff_toNat]
      simp only [eq_iff_iff, iff_false]
      intro hq
      rw [show ('’' : Char).toNat = 8217 from rfl] at hq
      omega
    simp [h1, h2, h3]

/-- C10: whenever a token has been emitted, the previous token is a single
alphanumeric character, and the candidate is exactly `"."`, the
abbreviation-period merge of `concat_token` fires and fuses them, regardless
of the contents of the abbreviation-period set, because `RE_ABBREVIATION`
matches a single letter-or-digit with zero separator repetitions. -/
theorem c10_single_alnum_dot_merges (res : TokRes) (c : Char) (ts : List (List Char))
    (os : List (Nat × Nat)) (b0 e0 bn en : Nat) (hc : c.isAlphanum = true) :
    concat_token res ([c] :: ts, (b0, e0) :: os) ['.'] bn en =
      (true, ([c, '.'] :: ts, (b0, en) :: os)) := by
  have hto := toLower_keeps_alnum c hc
  have hlow : lowerStr ['.'] = ['.'] := rfl
  have hap : apostrophe_front res (lowerStr [c]) (lowerStr ['.']) = false := by
    unfold apostrophe_front
    rw [show lowerStr [c] = [c.toLower] from rfl]
    rw [show ([c.toLower] : List Char).headD ' ' = c.toLower from rfl]
    rw [hto.2]
    simp
  have hab : abbreviation res (lowerStr [c]) (lowerStr ['.']) = true := by
    unfold abbreviation
    rw [hlow]
    rw [show lowerStr [c] = [c.toLower] from rfl]
    rw [show RE_ABBREVIATION_match [c.toLower] = (c.toLower.isAlphanum && abbrevTail []) from rfl]
    rw [hto.1]
    simp [abbrevTail]
  unfold concat_token
  dsimp only
  rw [hap, hab]
  rfl

/-- C10 witness at the concrete tokens `"a"` and `"."`. -/
theorem c10_witness :
    ('a').isAlphanum = true ∧
    concat_token res0 ([['a']], [(0, 1)]) ['.'] 1 2 = (true, ([['a', '.']], [(0, 2)])) :=
  ⟨by decide, c10_single_alnum_dot_merges res0 'a' [] [] 0 1 1 2 (by decide)⟩

/-! ## Claim C6: symbol-scan skip exemptions -/

theorem pySlice_all_digit_iff (tok : List Char) (a b : Nat) (hb : b ≤ tok.length) :
    ((pySlice tok a b).all Char.isDigit = true) ↔
      ∀ k, a ≤ k → k < b → (tok.getD k ' ').isDigit = true := by
  unfold pySlice
  rw [List.all_eq_true]
  constructor
  · intro h k h1 h2
    have hlen : k - a < ((tok.drop a).take (b - a)).length := by
      simp [List.length_take, List.length_drop]; omega
    have hk : k < tok.length := by omega
    have hka : a + (k - a) = k := by omega
    have hget : ((tok.drop a).take (b - a)).getD (k - a) ' ' = tok.getD k ' ' := by
      rw [List.getD_eq_getElem _ ' ' hlen, List.getD_eq_getElem tok ' ' hk,
        List.getElem_take, List.getElem_drop]
      simp only [hka]
    have hmem : ((tok.drop a).take (b - a)).getD (k - a) ' ' ∈ (tok.drop a).take (b - a) := by
      rw [List.getD_eq_getElem _ ' ' hlen]
      exact List.getElem_mem hlen
    have hd := h _ hmem
    rw [hget] at hd
    exact hd
  · intro h x hx
    obtain ⟨m, hm, hx⟩ := List.mem_iff_getElem.mp hx
    have hmb : a + m < b := by
      have := hm
      simp [List.length_take, List.length_drop] at this
      omega
    have hmlen : a + m < tok.length := by omega
    have hget : ((tok.drop a).take (b - a)).getD m ' ' = tok.getD (a + m) ' ' := by
      rw [List.getD_eq_getElem _ ' ' hm, List.getD_eq_getElem tok ' ' hmlen,
        List.getElem_take, List.getElem_drop]
    have hxd : ((tok.drop a).take (b - a)).getD m ' ' = x := by
      rw [List.getD_eq_getElem _ ' ' hm]
      exact hx
    rw [← hxd, hget]
    exact h (a + m) (by omega) hmb

theorem is_digit1_nat_iff (tok : List Char) (k : Nat) :
    is_digit1 tok (k : Int) = true ↔ spec_digit_at tok k := by
  unfold is_digit1 spec_digit_at
  split
  · rename_i h
    rw [Int.toNat_ofNat]
    exact ⟨fun hd => ⟨by exact_mod_cast h.2, hd⟩, fun hd => hd.2⟩
  · rename_i h
    simp only [Bool.false_eq_true, false_iff]
    intro hd
    exact h ⟨Int.ofNat_nonneg k, by exact_mod_cast hd.1⟩

theorem is_digit1_sub_one_iff (tok : List Char) (i : Nat) :
    is_digit1 tok ((i : Int) - 1) = true ↔ 0 < i ∧ spec_digit_at tok (i - 1) := by
  rcases Nat.eq_zero_or_pos i with h0 | h0
  · subst h0
    simp only [Nat.cast_zero, zero_sub]
    unfold is_digit1
    rw [if_neg (by omega)]
    simp
  · have he : ((i : Int) - 1) = ((i - 1 : Nat) : Int) := by omega
    rw [he, is_digit1_nat_iff]
    exact ⟨fun h => ⟨h0, h⟩, fun h => h.2⟩

theorem is_digit2_nat_iff (tok : List Char) (a b : Nat) (hab : a < b) :
    is_digit2 tok (a : Int) (b : Int) = true ↔ spec_digits_upto tok a b := by
  unfold is_digit2 spec_digits_upto
  by_cases hb : b ≤ tok.length
  · rw [if_pos ⟨Int.ofNat_nonneg a, by exact_mod_cast (lt_of_lt_of_le hab hb)⟩,
      if_pos ⟨by exact_mod_cast hab, by exact_mod_cast hb⟩, Int.toNat_ofNat, Int.toNat_ofNat]
    rw [pySlice_all_digit_iff tok a b hb]
    exact ⟨fun h => ⟨hb, h⟩, fun h => h.2⟩
  · have hneg : ¬((a : Int) < (b : Int) ∧ (b : Int) ≤ (tok.length : Int)) := by
      intro hx
      exact hb (by exact_mod_cast hx.2)
    constructor
    · intro h
      rw [if_neg hneg] at h
      simp at h
    · intro h
      exact absurd h.1 hb

/-- C6: in symbol scanning, `skip` exempts a character exactly under the five
conditions of the spec: period or plus when the next character is a digit;
hyphen only at position 0 when the next character is a digit; comma preceded
by a digit and followed by exactly three digits with no fourth digit; colon
between two digits; and a single-quote character followed by exactly two
digits with no third digit. -/
theorem c6_skip_exemptions (token : List Char) (i : Nat) (c : Char) :
    skip token i c = true ↔ spec_skip_conditions token i c := by
  unfold skip spec_skip_conditions
  have e1 : ((i : Int) + 1) = ((i + 1 : Nat) : Int) := by push_cast; ring
  have e3 : ((i : Int) + 3) = ((i + 3 : Nat) : Int) := by push_cast; ring
  have e4 : ((i : Int) + 4) = ((i + 4 : Nat) : Int) := by push_cast; ring
  by_cases hdot : c = '.' ∨ c = '+'
  · rw [if_pos (by rcases hdot with h | h <;> simp [h])]
    rw [e1, is_digit1_nat_iff]
    constructor
    · intro hd
      exact Or.inl ⟨hdot, hd⟩
    · rintro (⟨_, hd⟩ | ⟨hc, _⟩ | ⟨hc, _⟩ | ⟨hc, _⟩ | ⟨hq, _⟩)
      · exact hd
      · rcases hdot with h | h <;> subst h <;> exact absurd hc (by decide)
      · rcases hdot with h | h <;> subst h <;> exact absurd hc (by decide)
      · rcases hdot with h | h <;> subst h <;> exact absurd hc (by decide)
      · rcases hdot with h | h <;> subst h <;> exact absurd hq (by decide)
  · rw [if_neg (by simpa using hdot)]
    by_cases hm : c = '-'
    · rw [if_pos (by simp [hm])]
      subst hm
      simp only [Bool.and_eq_true, decide_eq_true_eq]
      rw [e1, is_digit1_nat_iff]
      constructor
      · intro hd
        exact Or.inr (Or.inl ⟨by trivial, hd.1, hd.2⟩)
      · rintro (⟨hc, _⟩ | ⟨_, hi0, hd⟩ | ⟨hc, _⟩ | ⟨hc, _⟩ | ⟨hq, _⟩)
        · rcases hc with h | h <;> exact absurd h (by decide)
        · exact ⟨hi0, hd⟩
        · exact absurd hc (by decide)
        · exact absurd hc (by decide)
        · exact absurd hq (by decide)
    · rw [if_neg (by simpa using hm)]
      by_cases hcm : c = ','
      · rw [if_pos (by simp [hcm])]
        subst hcm
        simp only [Bool.and_eq_true, Bool.not_eq_true']
        rw [e1, e4, is_digit1_sub_one_iff, is_digit2_nat_iff _ _ _ (by omega)]
        constructor
        · rintro ⟨⟨hpre, hdig⟩, hlast⟩
          refine Or.inr (Or.inr (Or.inl ⟨by trivial, hpre, hdig, ?_⟩))
          intro hcontra
          rw [(is_digit1_nat_iff token (i + 4)).mpr hcontra] at hlast
          exact absurd hlast (by simp)
        · rintro (⟨hc, _⟩ | ⟨hc, _⟩ | ⟨_, hpre, hdig, hnot⟩ | ⟨hc, _⟩ | ⟨hq, _⟩)
          · rcases hc with h | h <;> exact absurd h (by decide)
          · exact absurd hc (by decide)
          · refine ⟨⟨hpre, hdig⟩, ?_⟩
            cases hx : is_digit1 token ((i + 4 : Nat) : Int)
            · rfl
            · exact absurd ((is_digit1_nat_iff token (i + 4)).mp hx) hnot
          · exact absurd hc (by decide)
          · exact absurd hq (by decide)
      · rw [if_neg (by simpa using hcm)]
        by_cases hco : c = ':'
        · rw [if_pos (by simp [hco])]
          subst hco
          simp only [Bool.and_eq_true]
          rw [e1, is_digit1_sub_one_iff, is_digit1_nat_iff]
          constructor
          · rintro ⟨hpre, hnext⟩
            exact Or.inr (Or.inr (Or.inr (Or.inl ⟨by trivial, hpre, hnext⟩)))
          · rintro (⟨hc, _⟩ | ⟨hc, _⟩ | ⟨hc, _⟩ | ⟨_, hpre, hnext⟩ | ⟨hq, _⟩)
            · rcases hc with h | h <;> exact absurd h (by decide)
            · exact absurd hc (by decide)
            · exact absurd hc (by decide)
            · exact ⟨hpre, hnext⟩
            · exact absurd hq (by decide)
        · rw [if_neg (by simpa using hco)]
          by_cases hq : is_single_quote c = true
          · rw [if_pos hq]
            simp only [Bool.and_eq_true, Bool.not_eq_true']
            rw [e1, e3, is_digit2_nat_iff _ _ _ (by omega)]
            constructor
            · rintro ⟨hdig, hlast⟩
              refine Or.inr (Or.inr (Or.inr (Or.inr ⟨hq, hdig, ?_⟩)))
              intro hcontra
              rw [(is_digit1_nat_iff token (i + 3)).mpr hcontra] at hlast
              exact absurd hlast (by simp)
            · rintro (⟨hc, _⟩ | ⟨hc, _⟩ | ⟨hc, _⟩ | ⟨hc, _⟩ | ⟨_, hdig, hnot⟩)
              · exact absurd hc hdot
              · exact absurd hc hm
              · exact absurd hc hcm
              · exact absurd hc hco
              · refine ⟨hdig, ?_⟩
                cases hx : is_digit1 token ((i + 3 : Nat) : Int)
                · rfl
                · exact absurd ((is_digit1_nat_iff token (i + 3)).mp hx) hnot
          · rw [if_neg hq]
            simp only [Bool.false_eq_true, false_iff]
            rintro (⟨hc, _⟩ | ⟨hc, _⟩ | ⟨hc, _⟩ | ⟨hc, _⟩ | ⟨hqq, _⟩)
            · exact absurd hc hdot
            · exact absurd hc hm
            · exact absurd hc hcm
            · exact absurd hc hco
            · exact absurd hqq hq

/-! ## Claim C9: empty and all-whitespace input -/

theorem pySplit_all_space (fuel : Nat) (l : List Char) (h : l.all pyIsSpace = true) :
    pySplit fuel l = [] := by
  induction fuel generalizing l with
  | zero => rfl
  | succ f ih =>
    cases l with
    | nil => rfl
    | cons c rest =>
      simp only [List.all_cons, Bool.and_eq_true] at h
      unfold pySplit
      rw [if_pos h.1]
      exact ih rest h.2

/-- C9: the empty input and every all-whitespace input yield `([], [])` from
both `EnglishTokenizer.tokenize` and `SpaceTokenizer.tokenize`, and the
offset reconstruction of the latter reports no error. -/
theorem c9_empty_and_whitespace (res : TokRes) (text : List Char)
    (h : text = [] ∨ text.all pyIsSpace = true) :
    tokenize res text = ([], []) ∧ space_tokenize text = some ([], []) := by
  have hall : text.all pyIsSpace = true := by
    rcases h with h | h
    · subst h; rfl
    · exact h
  constructor
  · unfold tokenize
    rw [if_pos (by simp [hall])]
  · unfold space_tokenize
    rw [pySplit_all_space _ _ hall]
    rfl

theorem c9_witness :
    tokenize res0 "  ".toList = ([], []) ∧ space_tokenize "  ".toList = some ([], []) :=
  c9_empty_and_whitespace res0 "  ".toList (Or.inr (by decide))

/-! ## Claim C4: offset reconstruction is the greedy specification -/

theorem index_from_eq_some_iff (text token : List Char) :
    ∀ fuel s b, text.length + 1 ≤ fuel + s →
      (index_from text token fuel s = some b ↔
        s ≤ b ∧ b + token.length ≤ text.length ∧
          pySlice text b (b + token.length) = token ∧
          ∀ j, s ≤ j → j < b → pySlice text j (j + token.length) ≠ token) := by
  intro fuel
  induction fuel with
  | zero =>
    intro s b hf
    simp only [index_from]
    constructor
    · intro h
      exact absurd h (by simp)
    · rintro ⟨h1, h2, _⟩
      omega
  | succ f ih =>
    intro s b hf
    unfold index_from
    split
    · rename_i hle
      split
      · rename_i heq
        constructor
        · intro h
          obtain rfl : s = b := by simpa using h
          exact ⟨le_refl s, hle, heq, fun j h1 h2 => absurd h1 (by omega)⟩
        · rintro ⟨h1, h2, h3, h4⟩
          have hb : b = s := by
            by_contra hne
            exact h4 s (le_refl s) (by omega) heq
          simp [hb]
      · rename_i hne
        rw [ih (s + 1) b (by omega)]
        constructor
        · rintro ⟨h1, h2, h3, h4⟩
          refine ⟨by omega, h2, h3, fun j hj1 hj2 => ?_⟩
          rcases Nat.eq_or_lt_of_le hj1 with rfl | hlt
          · exact hne
          · exact h4 j hlt hj2
        · rintro ⟨h1, h2, h3, h4⟩
          have hbs : s ≠ b := by
            rintro rfl
            exact hne h3
          exact ⟨by omega, h2, h3, fun j hj1 hj2 => h4 j (by omega) hj2⟩
    · rename_i hgt
      constructor
      · intro h
        exact absurd h (by simp)
      · rintro ⟨h1, h2, _⟩
        omega

theorem index_from_eq_none_iff (text token : List Char) :
    ∀ fuel s, text.length + 1 ≤ fuel + s →
      (index_from text token fuel s = none ↔
        ∀ j, s ≤ j → j + token.length ≤ text.length →
          pySlice text j (j + token.length) ≠ token) := by
  intro fuel
  induction fuel with
  | zero =>
    intro s hf
    simp only [index_from]
    constructor
    · intro _ j h1 h2
      omega
    · intro _
      trivial
  | succ f ih =>
    intro s hf
    unfold index_from
    split
    · rename_i hle
      split
      · rename_i heq
        constructor
        · intro h
          exact absurd h (by simp)
        · intro h
          exact absurd heq (h s (le_refl s) hle)
      · rename_i hne
        rw [ih (s + 1) (by omega)]
        constructor
        · intro h j hj1 hj2
          rcases Nat.eq_or_lt_of_le hj1 with rfl | hlt
          · exact hne
          · exact h j hlt hj2
        · intro h j hj1 hj2
          exact h j (by omega) hj2
    · rename_i hgt
      constructor
      · intro _ j h1 h2
        omega
      · intro _
        rfl

theorem pySlice_eq_self_imp (text t : List Char) (j : Nat)
    (h : pySlice text j (j + t.length) = t) : t = [] ∨ j + t.length ≤ text.length := by
  rcases Nat.eq_zero_or_pos t.length with h0 | h0
  · left
    exact List.eq_nil_of_length_eq_zero h0
  · right
    have hl := congrArg List.length h
    simp only [pySlice, List.length_take, List.length_drop] at hl
    omega

theorem offsets_aux_greedy_iff (text : List Char) (toks : List (List Char)) :
    ∀ e os, e ≤ text.length →
      (offsets_aux text e toks = some os ↔ GreedySpec text e toks os) := by
  induction toks with
  | nil =>
    intro e os he
    constructor
    · intro h
      obtain rfl : os = [] := by simpa [offsets_aux] using h.symm
      exact GreedySpec.nil e
    · intro h
      cases h
      rfl
  | cons t ts ih =>
    intro e os he
    unfold offsets_aux
    cases hidx : index_from text t (text.length + 1) e with
    | none =>
      rw [index_from_eq_none_iff text t (text.length + 1) e (by omega)] at hidx
      simp only [Option.none_bind]
      constructor
      · intro h
        exact absurd h (by simp)
      · intro h
        cases h with
        | cons e t ts b os hb hsl hmin hrec =>
          rcases pySlice_eq_self_imp text t b hsl with h0 | hble
          · subst h0
            have hbe : b = e := by
              by_contra hne
              exact hmin e (le_refl e) (by omega) (by simp [pySlice])
            subst hbe
            exact (hidx b hb (by simpa using he) hsl).elim
          · exact (hidx b hb hble hsl).elim
    | some b =>
      rw [index_from_eq_some_iff text t (text.length + 1) e b (by omega)] at hidx
      obtain ⟨hb, hble, hsl, hmin⟩ := hidx
      simp only [Option.some_bind]
      rw [Option.map_eq_some']
      constructor
      · rintro ⟨os', hos', rfl⟩
        exact GreedySpec.cons e t ts b os' hb hsl hmin
          ((ih (b + t.length) os' (by omega)).mp hos')
      · intro h
        cases h with
        | cons e t ts b2 os2 hb2 hsl2 hmin2 hrec2 =>
          have hbb : b2 = b := by
            rcases Nat.lt_trichotomy b2 b with hlt | heq | hgt
            · exact absurd hsl2 (hmin b2 hb2 hlt)
            · exact heq
            · exact absurd hsl (hmin2 b hb hgt)
          subst hbb
          exact ⟨os2, (ih (b2 + t.length) os2 (by omega)).mpr hrec2, rfl⟩

/-- C4: `Tokenizer.offsets` realizes exactly the greedy left-to-right
matching specification `GreedySpec` from position 0: a successful result
matches each token, in order, at its first occurrence at or after the end of
the previous match, so every returned pair `(b, e)` satisfies
`pySlice text b e = token` with `b` at least the previous end; and the
"token not found in source text" error (`none`) is raised precisely when no
such greedy derivation exists, i.e. some token has no occurrence at or after
the end of the previous match. -/
theorem c4_offsets_greedy (text : List Char) (toks : List (List Char)) :
    (∀ os, offsets text toks = some os ↔ GreedySpec text 0 toks os) ∧
    (offsets text toks = none ↔ ∀ os, ¬ GreedySpec text 0 toks os) := by
  have h : ∀ os, offsets text toks = some os ↔ GreedySpec text 0 toks os :=
    fun os => offsets_aux_greedy_iff text toks 0 os (Nat.zero_le _)
  refine ⟨h, ?_, ?_⟩
  · intro hnone os hg
    rw [← h os, hnone] at hg
    exact Option.noConfusion hg
  · intro hall
    cases hofs : offsets text toks with
    | none => rfl
    | some os => exact absurd ((h os).mp hofs) (hall os)

/-! ## Claim C8: SpaceTokenizer never hits the offsets error -/

theorem OccursFrom_mono (text : List Char) (ts : List (List Char)) :
    ∀ e e', e' ≤ e → OccursFrom text e ts → OccursFrom text e' ts := by
  cases ts with
  | nil =>
    intro e e' _ _
    trivial
  | cons t ts =>
    rintro e e' h ⟨b, hb, hsl, hrest⟩
    exact ⟨b, by omega, hsl, hrest⟩

theorem OccursFrom_greedy (text : List Char) (ts : List (List Char)) :
    ∀ e, OccursFrom text e ts → ∃ os, GreedySpec text e ts os := by
  induction ts with
  | nil =>
    intro e _
    exact ⟨[], GreedySpec.nil e⟩
  | cons t ts ih =>
    rintro e ⟨b, hb, hsl, hrest⟩
    have hP : ∃ c, e ≤ c ∧ pySlice text c (c + t.length) = t := ⟨b, hb, hsl⟩
    obtain ⟨hb0e, hb0sl⟩ := Nat.find_spec hP
    have hb0le : Nat.find hP ≤ b := Nat.find_min' hP ⟨hb, hsl⟩
    have hrest0 : OccursFrom text (Nat.find hP + t.length) ts :=
      OccursFrom_mono text ts (b + t.length) (Nat.find hP + t.length) (by omega) hrest
    obtain ⟨os, hos⟩ := ih (Nat.find hP + t.length) hrest0
    refine ⟨(Nat.find hP, Nat.find hP + t.length) :: os,
      GreedySpec.cons e t ts (Nat.find hP) os hb0e hb0sl ?_ hos⟩
    intro j hj1 hj2 hcontra
    exact Nat.find_min hP hj2 ⟨hj1, hcontra⟩

theorem pySplit_occurs (text : List Char) :
    ∀ fuel e rest, rest = text.drop e → OccursFrom text e (pySplit fuel rest) := by
  intro fuel
  induction fuel with
  | zero =>
    intro e rest _
    trivial
  | succ f ih =>
    intro e rest hrest
    cases rest with
    | nil => trivial
    | cons c rest2 =>
      unfold pySplit
      by_cases hsp : pyIsSpace c = true
      · rw [if_pos hsp]
        have hdrop : rest2 = text.drop (e + 1) := by
          have h1 : text.drop (e + 1) = (text.drop e).drop 1 := by
            rw [List.drop_drop]
          rw [h1, ← hrest]
          rfl
        exact OccursFrom_mono text _ (e + 1) e (by omega) (ih (e + 1) rest2 hdrop)
      · rw [if_neg hsp]
        have hc : (fun d => !pyIsSpace d) c = true := by
          simp [hsp]
        have hptw : c :: rest2.takeWhile (fun d => !pyIsSpace d) =
            (c :: rest2).takeWhile (fun d => !pyIsSpace d) := by
          simp [List.takeWhile_cons, hsp]
        have hslice : pySlice text e
            (e + (c :: rest2.takeWhile (fun d => !pyIsSpace d)).length) =
            c :: rest2.takeWhile (fun d => !pyIsSpace d) := by
          unfold pySlice
          rw [← hrest, Nat.add_sub_cancel_left, hptw]
          exact (List.prefix_iff_eq_take.mp (List.takeWhile_prefix _)).symm
        have hdrop2 : rest2.dropWhile (fun d => !pyIsSpace d) =
            text.drop (e + (c :: rest2.takeWhile (fun d => !pyIsSpace d)).length) := by
          have h1 : text.drop (e + (c :: rest2.takeWhile (fun d => !pyIsSpace d)).length) =
              (text.drop e).drop (c :: rest2.takeWhile (fun d => !pyIsSpace d)).length := by
            rw [List.drop_drop]
          have hdw : (c :: rest2).dropWhile (fun d => !pyIsSpace d) =
              rest2.dropWhile (fun d => !pyIsSpace d) := by
            simp [List.dropWhile_cons, hsp]
          rw [h1, ← hrest, hptw, ← hdw]
          have h2 := List.drop_left ((c :: rest2).takeWhile (fun d => !pyIsSpace d))
            ((c :: rest2).dropWhile (fun d => !pyIsSpace d))
          rw [List.takeWhile_append_dropWhile] at h2
          exact h2.symm
        exact ⟨e, le_refl e, hslice,
          ih (e + (c :: rest2.takeWhile (fun d => !pyIsSpace d)).length) _ hdrop2⟩

theorem pySplit_pieces :
    ∀ fuel l t, t ∈ pySplit fuel l → t ≠ [] ∧ t.all (fun c => !pyIsSpace c) = true := by
  intro fuel
  induction fuel with
  | zero =>
    intro l t ht
    exact absurd ht (by simp [pySplit])
  | succ f ih =>
    intro l t ht
    cases l with
    | nil => exact absurd ht (by simp [pySplit])
    | cons c rest =>
      unfold pySplit at ht
      by_cases hsp : pyIsSpace c = true
      · rw [if_pos hsp] at ht
        exact ih rest t ht
      · rw [if_neg hsp] at ht
        rcases List.mem_cons.mp ht with rfl | hmem
        · refine ⟨by simp, ?_⟩
          simp only [List.all_cons, Bool.and_eq_true]
          exact ⟨by simp [hsp], List.all_takeWhile⟩
        · exact ih _ t hmem

/-- C8: `SpaceTokenizer.tokenize` never reaches the offset-reconstruction
error: the whitespace split produces tokens that occur in the text in
left-to-right order, so `Tokenizer.offsets` succeeds and the result is
`some` of the split with its offsets; moreover every emitted piece is
nonempty and contains no whitespace. -/
theorem c8_space_tokenize_safe (text : List Char) :
    (∃ os, space_tokenize text = some (pySplit text.length text, os)) ∧
    ∀ t ∈ pySplit text.length text, t ≠ [] ∧ t.all (fun c => !pyIsSpace c) = true := by
  constructor
  · have hocc := pySplit_occurs text text.length 0 text (by simp)
    obtain ⟨os, hos⟩ := OccursFrom_greedy text (pySplit text.length text) 0 hocc
    have hsome : offsets text (pySplit text.length text) = some os :=
      (offsets_aux_greedy_iff text (pySplit text.length text) 0 os (Nat.zero_le _)).mpr hos
    refine ⟨os, ?_⟩
    unfold space_tokenize
    rw [hsome]
    rfl
  · intro t ht
    exact pySplit_pieces text.length text t ht

theorem c8_witness :
    ['a'] ∈ pySplit "a b".toList.length "a b".toList ∧
      (['a'] ≠ [] ∧ ['a'].all (fun c => !pyIsSpace c) = true) :=
  ⟨by decide, (c8_space_tokenize_safe "a b".toList).2 ['a'] (by decide)⟩

/-! ## Claim C5: regex pattern priority and split structure -/

/-- C5: in `tokenize_regex` the six patterns are tried in the fixed source
order HTML entity, email, hyperlink protocol, emoticon, list item,
apostrophe; the first with any match wins regardless of match position, a
winning group match resolves the span before the match and the span after
the match recursively with the matched range emitted as one token
(`do_split`), the fallback returns the state unchanged -- but a winning
hyperlink match starting at position `i > 0` emits `token[i:]`, everything
to the end of the span, as the single token with no recursive resolution
after the match, and at `i = 0` the whole span is the token. -/
theorem c5_regex_priority (recur : Recur) (res : TokRes) (st : TokSt) (b e : Nat)
    (token : List Char) :
    (∀ i l, htmlSearch token = some (i, l) →
      tokenize_regex recur res st b e token =
        (true, do_split recur res st b e token i l)) ∧
    (htmlSearch token = none → ∀ i l, emailSearch token = some (i, l) →
      tokenize_regex recur res st b e token =
        (true, do_split recur res st b e token i l)) ∧
    (htmlSearch token = none → emailSearch token = none →
      ∀ i l, protoSearch token = some (i, l) →
      tokenize_regex recur res st b e token =
        (true, if 0 < i then
            add_token res ((recur st b (b + i)).2) (token.drop i) (b + i) e
          else add_token res st token b e)) ∧
    (htmlSearch token = none → emailSearch token = none → protoSearch token = none →
      ∀ i l, emoSearch token = some (i, l) →
      tokenize_regex recur res st b e token =
        (true, do_split recur res st b e token i l)) ∧
    (htmlSearch token = none → emailSearch token = none → protoSearch token = none →
      emoSearch token = none → ∀ i l, listSearch token = some (i, l) →
      tokenize_regex recur res st b e token =
        (true, do_split recur res st b e token i l)) ∧
    (htmlSearch token = none → emailSearch token = none → protoSearch token = none →
      emoSearch token = none → listSearch token = none →
      ∀ i l, aposSearch token = some (i, l) →
      tokenize_regex recur res st b e token =
        (true, do_split recur res st b e token i l)) ∧
    (htmlSearch token = none → emailSearch token = none → protoSearch token = none →
      emoSearch token = none → listSearch token = none → aposSearch token = none →
      tokenize_regex recur res st b e token = (false, st)) := by
  refine ⟨?_, ?_, ?_, ?_, ?_, ?_, ?_⟩
  · intro i l h
    unfold tokenize_regex rgx_group
    rw [h]
  · intro h0 i l h
    unfold tokenize_regex rgx_group
    rw [h0, h]
  · intro h0 h1 i l h
    unfold tokenize_regex rgx_group rgx_hyperlink
    rw [h0, h1, h]
    dsimp only
    by_cases hi : 0 < i
    · rw [if_pos hi, if_pos hi]
    · rw [if_neg hi, if_neg hi]
  · intro h0 h1 h2 i l h
    unfold tokenize_regex rgx_group rgx_hyperlink
    rw [h0, h1, h2, h]
  · intro h0 h1 h2 h3 i l h
    unfold tokenize_regex rgx_group rgx_hyperlink
    rw [h0, h1, h2, h3, h]
  · intro h0 h1 h2 h3 h4 i l h
    unfold tokenize_regex rgx_group rgx_hyperlink
    rw [h0, h1, h2, h3, h4, h]
  · intro h0 h1 h2 h3 h4 h5
    unfold tokenize_regex rgx_group rgx_hyperlink
    rw [h0, h1, h2, h3, h4, h5]

theorem c5_counterexample :
    protoSearch "(http://x)".toList = some (1, 8) ∧
    tokenize res0 "(http://x)".toList =
      ([['('], ['h', 't', 't', 'p', ':', '/', '/', 'x', ')']], [(0, 1), (1, 10)]) ∧
    (1, 8) ∉ (tokenize res0 "(http://x)".toList).2 := by
  refine ⟨by rfl, by rfl, by decide⟩

theorem c5_witness :
    htmlSearch "a@b.cc".toList = none ∧
    emailSearch "a@b.cc".toList = some (0, 6) ∧
    tokenize_regex (fun st _ _ => (false, st)) res0 ([], []) 0 6 "a@b.cc".toList =
      (true, do_split (fun st _ _ => (false, st)) res0 ([], []) 0 6 "a@b.cc".toList 0 6) :=
  ⟨rfl, rfl,
    (c5_regex_priority (fun st _ _ => (false, st)) res0 ([], []) 0 6 "a@b.cc".toList).2.1
      rfl 0 6 rfl⟩

/-! ## Claim C7: termination as fuel irrelevance of tokenize_aux -/

theorem do_split_congr (recur1 recur2 : Recur) (res : TokRes) (st : TokSt)
    (b e : Nat) (token : List Char) (i j : Nat) (hbe : b < e) (hij : i < j) (hj : j ≤ e - b)
    (hrec : ∀ st2 b2 e2, b ≤ b2 → e2 ≤ e → e2 - b2 < e - b →
      recur1 st2 b2 e2 = recur2 st2 b2 e2) :
    do_split recur1 res st b e token i j = do_split recur2 res st b e token i j := by
  unfold do_split
  dsimp only
  rw [hrec st b (b + i) (le_refl b) (by omega) (by omega)]
  rw [hrec _ (b + j) e (by omega) (le_refl e) (by omega)]

theorem rgx_group_congr (recur1 recur2 : Recur) (res : TokRes) (st : TokSt)
    (b e : Nat) (token : List Char) (search : List Char → Option (Nat × Nat))
    (hbe : b < e) (hlen : token.length = e - b)
    (hsb : ∀ i l, search token = some (i, l) → i < l ∧ l ≤ token.length)
    (hrec : ∀ st2 b2 e2, b ≤ b2 → e2 ≤ e → e2 - b2 < e - b →
      recur1 st2 b2 e2 = recur2 st2 b2 e2) :
    rgx_group recur1 res st b e token search = rgx_group recur2 res st b e token search := by
  unfold rgx_group
  cases hs : search token with
  | none => rfl
  | some il =>
    obtain ⟨i, l⟩ := il
    have hb2 := hsb i l hs
    dsimp only
    rw [do_split_congr recur1 recur2 res st b e token i l hbe hb2.1 (by omega) hrec]

theorem rgx_hyperlink_congr (recur1 recur2 : Recur) (res : TokRes) (st : TokSt)
    (b e : Nat) (token : List Char) (hbe : b < e) (hlen : token.length = e - b)
    (hrec : ∀ st2 b2 e2, b ≤ b2 → e2 ≤ e → e2 - b2 < e - b →
      recur1 st2 b2 e2 = recur2 st2 b2 e2) :
    rgx_hyperlink recur1 res st b e token = rgx_hyperlink recur2 res st b e token := by
  unfold rgx_hyperlink
  cases hs : protoSearch token with
  | none => rfl
  | some il =>
    obtain ⟨i, l⟩ := il
    have hb2 := protoSearch_bounds token i l hs
    dsimp only
    by_cases hi : 0 < i
    · rw [if_pos hi, if_pos hi, hrec st b (b + i) (le_refl b) (by omega) (by omega)]
    · rw [if_neg hi, if_neg hi]

theorem tokenize_regex_congr (recur1 recur2 : Recur) (res : TokRes) (st : TokSt)
    (b e : Nat) (token : List Char) (hbe : b < e) (hlen : token.length = e - b)
    (hrec : ∀ st2 b2 e2, b ≤ b2 → e2 ≤ e → e2 - b2 < e - b →
      recur1 st2 b2 e2 = recur2 st2 b2 e2) :
    tokenize_regex recur1 res st b e token = tokenize_regex recur2 res st b e token := by
  unfold tokenize_regex
  rw [rgx_group_congr recur1 recur2 res st b e token htmlSearch hbe hlen
      (fun i l hs => htmlSearch_bounds token i l hs) hrec,
    rgx_group_congr recur1 recur2 res st b e token emailSearch hbe hlen
      (fun i l hs => emailSearch_bounds token i l hs) hrec,
    rgx_hyperlink_congr recur1 recur2 res st b e token hbe hlen hrec,
    rgx_group_congr recur1 recur2 res st b e token emoSearch hbe hlen
      (fun i l hs => emoSearch_bounds token i l hs) hrec,
    rgx_group_congr recur1 recur2 res st b e token listSearch hbe hlen
      (fun i l hs => listSearch_bounds token i l hs) hrec,
    rgx_group_congr recur1 recur2 res st b e token aposSearch hbe hlen
      (fun i l hs => aposSearch_bounds token i l hs) hrec]

theorem sym_loop_congr (recur1 recur2 : Recur) (res : TokRes) (st : TokSt)
    (b e : Nat) (token : List Char) (hbe : b < e) (hlen : token.length = e - b)
    (hrec : ∀ st2 b2 e2, b ≤ b2 → e2 ≤ e → e2 - b2 < e - b →
      recur1 st2 b2 e2 = recur2 st2 b2 e2) :
    ∀ fuel i0, sym_loop recur1 res st b e token fuel i0 =
      sym_loop recur2 res st b e token fuel i0 := by
  intro fuel
  induction fuel with
  | zero =>
    intro i0
    rfl
  | succ n ih =>
    intro i0
    conv_lhs => rw [sym_loop]
    conv_rhs => rw [sym_loop]
    by_cases hlt : i0 < token.length
    · rw [dif_pos hlt, dif_pos hlt]
      have hils := index_last_sequence_bounds token (token.get ⟨i0, hlt⟩)
        token.length (i0 + 1) (by omega)
      by_cases hskip : skip token i0 (token.get ⟨i0, hlt⟩) = true
      · rw [if_pos hskip, if_pos hskip]
        exact ih (i0 + 1)
      · rw [if_neg hskip, if_neg hskip]
        by_cases hsep : separator_0 (token.get ⟨i0, hlt⟩) = true
        · rw [if_pos hsep, if_pos hsep,
            do_split_congr recur1 recur2 res st b e token i0 _ hbe (by omega) (by omega) hrec]
        · rw [if_neg hsep, if_neg hsep]
          by_cases hedge : (edge_symbol_0 (token.get ⟨i0, hlt⟩) &&
              edge_symbol_1 token i0 (index_last_sequence token (token.get ⟨i0, hlt⟩) token.length (i0 + 1))) = true
          · rw [if_pos hedge, if_pos hedge,
              do_split_congr recur1 recur2 res st b e token i0 _ hbe (by omega) (by omega) hrec]
          · rw [if_neg hedge, if_neg hedge]
            by_cases hcur : (currency_like_0 (token.get ⟨i0, hlt⟩) &&
                currency_like_1 token i0 (index_last_sequence token (token.get ⟨i0, hlt⟩) token.length (i0 + 1))) = true
            · rw [if_pos hcur, if_pos hcur,
                do_split_congr recur1 recur2 res st b e token i0 _ hbe (by omega) (by omega) hrec]
            · rw [if_neg hcur, if_neg hcur]
              exact ih (i0 + 1)
    · rw [dif_neg hlt, dif_neg hlt]

theorem tokenize_aux_step_congr (recur1 recur2 : Recur) (res : TokRes) (text : List Char)
    (st : TokSt) (b e : Nat) (he : e ≤ text.length)
    (hrec : ∀ st2 b2 e2, b ≤ b2 → e2 ≤ e → e2 - b2 < e - b →
      recur1 st2 b2 e2 = recur2 st2 b2 e2) :
    tokenize_aux_step recur1 res text st b e = tokenize_aux_step recur2 res text st b e := by
  unfold tokenize_aux_step
  by_cases hguard : (e ≤ b || text.length < e) = true
  · rw [if_pos hguard, if_pos hguard]
  · rw [if_neg hguard, if_neg hguard]
    simp only [Bool.or_eq_true, decide_eq_true_eq] at hguard
    push_neg at hguard
    have hbe : b < e := by omega
    have hlen : (pySlice text b e).length = e - b := pySlice_length text b e (by omega) he
    dsimp only
    rw [tokenize_regex_congr recur1 recur2 res st b e (pySlice text b e) hbe hlen hrec]
    unfold tokenize_symbol
    rw [sym_loop_congr recur1 recur2 res st b e (pySlice text b e) hbe hlen hrec
      (pySlice text b e).length 0]

theorem tokenize_aux_fuel (res : TokRes) (text : List Char) :
    ∀ n f1 f2 st b e, e ≤ text.length → e - b ≤ n → e - b < f1 → e - b < f2 →
      tokenize_aux res text f1 st b e = tokenize_aux res text f2 st b e := by
  intro n
  induction n with
  | zero =>
    intro f1 f2 st b e he hn h1 h2
    obtain ⟨g1, rfl⟩ : ∃ g, f1 = g + 1 := ⟨f1 - 1, by omega⟩
    obtain ⟨g2, rfl⟩ : ∃ g, f2 = g + 1 := ⟨f2 - 1, by omega⟩
    rw [tokenize_aux, tokenize_aux]
    exact tokenize_aux_step_congr _ _ res text st b e he
      (fun st2 b2 e2 hb2 he2 hlt => absurd hlt (by omega))
  | succ n ih =>
    intro f1 f2 st b e he hn h1 h2
    obtain ⟨g1, rfl⟩ : ∃ g, f1 = g + 1 := ⟨f1 - 1, by omega⟩
    obtain ⟨g2, rfl⟩ : ∃ g, f2 = g + 1 := ⟨f2 - 1, by omega⟩
    rw [tokenize_aux, tokenize_aux]
    exact tokenize_aux_step_congr _ _ res text st b e he
      (fun st2 b2 e2 hb2 he2 hlt =>
        ih g1 g2 st2 b2 e2 (le_trans he2 he) (by omega) (by omega) (by omega))

/-- C7: `tokenize_aux` terminates on every span: because every recursive call
strictly shrinks the `[b, e)` range (pattern and symbol matches consume at
least one character, and the trivial and fallback branches are terminal), the
recursion depth is bounded by the span length, so any fuel beyond `e - b`
computes the same result as the least sufficient fuel `e - b + 1`: the
fuel-based embedding is the total function the Python recursion computes. -/
theorem c7_tokenize_aux_fuel_irrelevant (res : TokRes) (text : List Char)
    (f : Nat) (st : TokSt) (b e : Nat) (he : e ≤ text.length) (hf : e - b < f) :
    tokenize_aux res text f st b e = tokenize_aux res text (e - b + 1) st b e :=
  tokenize_aux_fuel res text (e - b) f (e - b + 1) st b e he (le_refl _) hf (by omega)

theorem c7_witness :
    3 ≤ "ab.".toList.length ∧ 3 - 0 < 10 ∧
    tokenize_aux res0 "ab.".toList 10 ([], []) 0 3 =
      tokenize_aux res0 "ab.".toList (3 - 0 + 1) ([], []) 0 3 :=
  ⟨by decide, by decide,
    c7_tokenize_aux_fuel_irrelevant res0 "ab.".toList 10 ([], []) 0 3 (by decide) (by decide)⟩
